import Mathlib

/-!
Verification of the `markup` package of mango (tokenizer → parser → node tree).

The parser source (`Node`, `Parser`, `TokenGroup`, `NewTokenGroup`, `Parse`,
`addNode`, `lastNode`, `openGroup`, `closeGroup`, `closeAllGroups`) is embedded
shallowly below.  The Go tree of nodes linked by owning child pointers and a
non-owning `Parent` back-reference is represented as an arena: a list of
nodes addressed by index, with `parent` and `childs` stored as indices.
The parser's mutable state (`root`, `curr`, the one-shot `onAdd` callback)
becomes explicit state passing; the only function ever stored in `onAdd` is
the space-insertion closure, so the field is represented by a `Bool` flag.
The `TokenGroup` read cursor (`pos`, `Next`, `Tokens`) is represented by
threading the list of still-unread tokens through the consumption loop.
`Parse`'s slice step `tokens = tokens[consumed+1:]` panics in Go when
`consumed+1` exceeds the number of remaining tokens; the embedding returns
`Option`, with `none` for that panic.
-/

namespace Mango

/-- Token kinds. The tokenizer source file defining the `TOKEN_*` constants is
not part of the excerpt; the kinds are those used by the parser and listed in
the spec (`sect` stands for TOKEN_SECTION, `star` for the bold delimiter,
`underline` for the underline delimiter). -/
inductive TokenKind where
  | indent
  | eol
  | sect
  | text
  | star
  | underline
  | listItem
  | blockItem
  deriving DecidableEq

/-- Token: smallest lexical unit with a kind and optional text payload. -/
structure Token where
  kind : TokenKind
  text : String
  deriving DecidableEq

/-- Modelled from the spec: the tokenizer file holding `NewToken` is not in
the excerpt; a token built from a kind alone carries empty text. -/
def NewToken (k : TokenKind) : Token := ⟨k, ""⟩

/-- Modelled from the spec: the tokenizer file holding `NewTokenWithText` is
not in the excerpt. -/
def NewTokenWithText (k : TokenKind) (s : String) : Token := ⟨k, s⟩

/-- Modelled from the spec: `Token.Is` (tokenizer file, absent from the
excerpt) checks whether a token has the given kind. -/
def Token.Is (t : Token) (k : TokenKind) : Bool := decide (t.kind = k)

/-- Modelled from the spec: "A lookahead predicate checks whether the next N
tokens match a given kind sequence without consuming them" (`Tokens.Are`,
tokenizer file, absent from the excerpt). -/
def Tokens.Are (ts : List Token) (ks : List TokenKind) : Bool :=
  match ts, ks with
  | _, [] => true
  | [], _ :: _ => false
  | t :: ts, k :: ks => t.Is k && Tokens.Are ts ks

/-- Node kinds (the NODE_* constants; `sect` is NODE_SECTION, `brk` is
NODE_BREAK). -/
inductive NodeKind where
  | group
  | block
  | sect
  | text
  | textBold
  | textUnderline
  | list
  | listItem
  | space
  | brk
  deriving DecidableEq

/-- Node: `{Kind, Text, Parent, Childs}` with the pointers replaced by arena
indices (`parent` is the non-owning back reference, `childs` the ordered
children). -/
structure Node where
  kind : NodeKind
  text : String
  parent : Option Nat
  childs : List Nat
  deriving DecidableEq

/-- NewNodeWithText: a fresh node has no parent and no children. -/
def NewNodeWithText (kind : NodeKind) (text : String) : Node :=
  ⟨kind, text, none, []⟩

/-- NewNode. -/
def NewNode (kind : NodeKind) : Node := NewNodeWithText kind ""

/-- Node.IsTextNode: true for Text, TextBold and TextUnderline. -/
def Node.IsTextNode (n : Node) : Bool :=
  match n.kind with
  | .text => true
  | .textBold => true
  | .textUnderline => true
  | _ => false

/-- Arena lookup; out-of-range indices (never produced by the parser) yield a
default fresh group node, mirroring that the Go code never dereferences an
invalid pointer. -/
def getN (arena : List Node) (i : Nat) : Node :=
  arena.getD i (NewNode .group)

/-- Point update of the arena at one index (used for `AddChild`'s mutation of
the parent's child list). -/
def arenaModify (arena : List Node) (i : Nat) (f : Node → Node) : List Node :=
  match arena, i with
  | [], _ => []
  | n :: ns, 0 => f n :: ns
  | n :: ns, j + 1 => n :: arenaModify ns j f

/-- Parser state: the arena plus the `root` and `curr` indices and the
one-shot `onAdd` hook.  In the source `onAdd` is a function pointer, but the
only function ever assigned to it is the closure that inserts a Space node
before the next text node, so a `Bool` flag captures it exactly. -/
structure Parser where
  arena : List Node
  root : Nat
  curr : Nat
  onAdd : Bool
  deriving DecidableEq

/-- `Node.AddChild` performed at the current node: create the node with
`parent` pointing at `curr`, append its index to `curr`'s child list, and
push it onto the arena.  Returns the new node's index. -/
def attach (p : Parser) (kind : NodeKind) (text : String) : Parser × Nat :=
  let idx := p.arena.length
  let node : Node := ⟨kind, text, some p.curr, []⟩
  let arena :=
    arenaModify p.arena p.curr (fun n => { n with childs := n.childs ++ [idx] }) ++ [node]
  ({ p with arena := arena }, idx)

/-- Parser.addNode: if the one-shot `onAdd` hook is armed it is cleared and
run first; the hook (the only callback ever installed) inserts a Space node
when the node about to be added is a text node.  Then the node is attached
under `curr`. -/
def addNode (p : Parser) (kind : NodeKind) (text : String) : Parser × Nat :=
  let node := NewNodeWithText kind text
  if p.onAdd then
    let p1 : Parser := { p with onAdd := false }
    let p2 := if node.IsTextNode then (attach p1 .space "").1 else p1
    attach p2 kind text
  else
    attach p kind text

/-- `p.curr = p.addNode(...)`: add a node and descend into it. -/
def addNodeInto (p : Parser) (kind : NodeKind) (text : String) : Parser :=
  let r := addNode p kind text
  { r.1 with curr := r.2 }

/-- Parser.lastNode: the most recently added child of `curr`, or `curr`
itself if it has no children. -/
def lastNode (p : Parser) : Nat :=
  match (getN p.arena p.curr).childs.getLast? with
  | some i => i
  | none => p.curr

/-- Parser.openGroup: open a new Group node and make it current. -/
def openGroup (p : Parser) : Parser :=
  addNodeInto p .group ""

/-- The ancestor walk of Parser.closeGroup: while the node has a parent and is
not a Group node, step to the parent.  The walk is fuelled by the arena size;
parent indices are always strictly smaller than the child's index, so this
fuel is never exhausted on reachable states. -/
def climb (arena : List Node) : Nat → Nat → Nat
  | 0, curr => curr
  | fuel + 1, curr =>
    match (getN arena curr).parent with
    | none => curr
    | some par =>
        if (getN arena curr).kind = .group then curr else climb arena fuel par

/-- Parser.closeGroup: walk up to the first Group node (skipping
List/ListItem/Block wrappers) and move one level above it; at the root
(no parent) the walk stops and nothing moves. -/
def closeGroup (p : Parser) : Parser :=
  let c := climb p.arena p.arena.length p.curr
  match (getN p.arena c).parent with
  | none => { p with curr := c }
  | some par => { p with curr := par }

/-- Parser.closeAllGroups: reset `curr` to the root. -/
def closeAllGroups (p : Parser) : Parser :=
  { p with curr := p.root }

/-- The `levelDiff > 0` loop of Parse: open one Group per unit of increase. -/
def openGroups : Nat → Parser → Parser
  | 0, p => p
  | k + 1, p => openGroups k (openGroup p)

/-- The `levelDiff < 0` loop of Parse: close one level per unit of
decrease. -/
def closeGroups : Nat → Parser → Parser
  | 0, p => p
  | k + 1, p => closeGroups k (closeGroup p)

/-- TokenGroup: the tokens of one line (EOL stripped), its indentation level
and the read cursor. -/
structure TokenGroup where
  tokens : List Token
  level : Nat
  pos : Nat
  deriving DecidableEq

/-- NewTokenGroup: count and skip the leading Indent tokens, then collect the
tokens up to (not including) the next EndOfLine; return the group and the
number of tokens consumed (indents + body, the EndOfLine itself is not
counted). -/
def NewTokenGroup (inpTokens : List Token) : TokenGroup × Nat :=
  let level := (inpTokens.takeWhile (fun t => t.Is .indent)).length
  let tokens := (inpTokens.drop level).takeWhile (fun t => !(t.Is .eol))
  (⟨tokens, level, 0⟩, level + tokens.length)

/-- The group-splitting loop of Parse, fuelled by the number of remaining
tokens (each iteration consumes at least one token, so the fuel never runs
out when it starts at the token count).  Go advances with
`tokens = tokens[consumed+1:]`, which panics when `consumed+1` exceeds the
remaining length; that panic is `none`. -/
def splitGroupsAux : Nat → List Token → Option (List TokenGroup)
  | _, [] => some []
  | 0, _ :: _ => none
  | fuel + 1, t :: ts =>
      let r := NewTokenGroup (t :: ts)
      if r.2 + 1 > (t :: ts).length then
        none
      else
        (splitGroupsAux fuel ((t :: ts).drop (r.2 + 1))).map (fun gs => r.1 :: gs)

/-- Split a token sequence into line groups (the first loop of Parse). -/
def splitGroups (tokens : List Token) : Option (List TokenGroup) :=
  splitGroupsAux tokens.length tokens

/-- The inline-token consumption loop of Parse (lines 261-283 of the parser):
Section resets to the root and appends a Section node, Text appends a Text
node, a Bold/Underline delimiter pairs via two-token lookahead or is silently
dropped.  The group cursor is represented by the list of unread tokens. -/
def drainTokens : Parser → List Token → Parser
  | p, [] => p
  | p, ⟨.sect, s⟩ :: rest =>
      drainTokens (addNode (closeAllGroups p) .sect s).1 rest
  | p, ⟨.text, s⟩ :: rest =>
      drainTokens (addNode p .text s).1 rest
  | p, ⟨.star, _⟩ :: t1 :: t2 :: rest2 =>
      if Tokens.Are (t1 :: t2 :: rest2) [.text, .star] then
        drainTokens (addNode p .textBold t1.text).1 rest2
      else
        drainTokens p (t1 :: t2 :: rest2)
  | p, ⟨.underline, _⟩ :: t1 :: t2 :: rest2 =>
      if Tokens.Are (t1 :: t2 :: rest2) [.text, .underline] then
        drainTokens (addNode p .textUnderline t1.text).1 rest2
      else
        drainTokens p (t1 :: t2 :: rest2)
  | p, _ :: rest => drainTokens p rest

/-- The `levelDiff` switch of Parse: open groups on an indentation increase,
close levels on a decrease (a zero difference closes zero levels). -/
def levelStep (p : Parser) (lastLevel level : Nat) : Parser :=
  if lastLevel < level then openGroups (level - lastLevel) p
  else closeGroups (lastLevel - level) p

/-- The Block-item handling of Parse: if the line starts with a
Block-item-marker, consume it, open a Block node unless `curr` already is one,
and append a Text node with the marker's payload.  Returns the new state and
the unread remainder of the line. -/
def blockItemStep (p : Parser) (g : List Token) : Parser × List Token :=
  if Tokens.Are g [.blockItem] then
    match g with
    | item :: rest =>
        let q := if (getN p.arena p.curr).kind = .block then p
                 else addNodeInto p .block ""
        ((addNode q .text item.text).1, rest)
    | [] => (p, g)
  else (p, g)

/-- The List-item handling of Parse: if the line starts with a
List-item-marker, consume it, resolve the list container (a ListItem `curr`
moves up to its parent List, a List `curr` stays, anything else opens a new
List) and descend into a fresh ListItem node carrying the payload. -/
def listItemStep (p : Parser) (g : List Token) : Parser × List Token :=
  if Tokens.Are g [.listItem] then
    match g with
    | item :: rest =>
        let q :=
          match (getN p.arena p.curr).kind with
          | .listItem =>
              -- the parent of a ListItem node always exists (it was attached
              -- under one); Go dereferences it unconditionally
              { p with curr := (getN p.arena p.curr).parent.getD p.curr }
          | .list => p
          | _ => addNodeInto p .list ""
        (addNodeInto q .listItem item.text, rest)
    | [] => (p, g)
  else (p, g)

/-- The adjacency-hook arming of Parse: if the most recently added node under
`curr` (or `curr` itself when childless) is a text node, arm the one-shot
space hook. -/
def armSpaceHook (p : Parser) : Parser :=
  if (getN p.arena (lastNode p)).IsTextNode then { p with onAdd := true } else p

/-- Processing of one line group (the body of Parse's main loop).  Returns
the new parser state and the `lastLevel` for the next line.  `first` is
`i = 0`: an empty group that is not the first resets to the root, appends a
Break and skips the rest of the line (leaving `lastLevel` unchanged, since
the `continue` also skips the `lastLevel = group.level` update).  At the end
of a non-empty line the hook is unconditionally cleared. -/
def processGroup (p : Parser) (lastLevel : Nat) (first : Bool) (g : TokenGroup) :
    Parser × Nat :=
  if g.tokens.isEmpty && !first then
    ((addNode (closeAllGroups p) .brk "").1, lastLevel)
  else
    let p1 := levelStep p lastLevel g.level
    let s2 := blockItemStep p1 g.tokens
    let s3 := listItemStep s2.1 s2.2
    let p4 := armSpaceHook s3.1
    ({ drainTokens p4 s3.2 with onAdd := false }, g.level)

/-- Parse's main loop over the line groups. -/
def processGroupsAux : Parser → Nat → Bool → List TokenGroup → Parser
  | p, _, _, [] => p
  | p, lastLevel, first, g :: gs =>
      let r := processGroup p lastLevel first g
      processGroupsAux r.1 r.2 false gs

/-- The parser state at the start of Parse: a fresh Group root at index 0,
`curr` at the root, no hook armed. -/
def parserInit : Parser :=
  ⟨[NewNode .group], 0, 0, false⟩

/-- Parser.Parse: build the root, split the input into line groups and
process them in order.  `none` models the out-of-range slice panic of
`tokens = tokens[consumed+1:]`. -/
def Parse (tokens : List Token) : Option Parser :=
  if tokens.isEmpty then some parserInit
  else
    match splitGroups tokens with
    | none => none
    | some groups => some (processGroupsAux parserInit 0 true groups)

/-- The parse result, with the initial state as the (never used) fallback for
a failed parse. -/
def parseD (tokens : List Token) : Parser :=
  (Parse tokens).getD parserInit

/-- Kind and text of the node at an index. -/
def nodeInfo (p : Parser) (i : Nat) : NodeKind × String :=
  ((getN p.arena i).kind, (getN p.arena i).text)

/-- Kinds and texts of the children of the node at an index, in sibling
order. -/
def childInfo (p : Parser) (i : Nat) : List (NodeKind × String) :=
  (getN p.arena i).childs.map (fun c => nodeInfo p c)

/-- Children (kind, text) of node `i` of the tree parsed from `tokens`;
`[]` when the parse fails. -/
def parsedChildren (tokens : List Token) (i : Nat) : List (NodeKind × String) :=
  match Parse tokens with
  | some p => childInfo p i
  | none => []

/-- Number of List nodes in the whole arena. -/
def listNodeCount (p : Parser) : Nat :=
  (p.arena.filter (fun n => decide (n.kind = .list))).length

/-- Iterated parent lookup: follow `n` parent links from node `i`. -/
def parentIter (arena : List Node) : Nat → Nat → Option Nat
  | 0, i => some i
  | n + 1, i =>
    match (getN arena i).parent with
    | none => none
    | some j => parentIter arena n j

/-- The root (index 0) is an ancestor of node `i`: some number of parent
steps reaches it. -/
def reachesRoot (arena : List Node) (i : Nat) : Prop :=
  ∃ n, parentIter arena n i = some 0

/-! ### Basic arena lemmas -/

theorem arenaModify_length (l : List Node) (i : Nat) (f : Node → Node) :
    (arenaModify l i f).length = l.length := by
  induction l generalizing i with
  | nil => rfl
  | cons n ns ih => cases i <;> simp [arenaModify, ih]

theorem getN_arenaModify_ne (l : List Node) (i j : Nat) (f : Node → Node) (h : j ≠ i) :
    getN (arenaModify l i f) j = getN l j := by
  induction l generalizing i j with
  | nil => rfl
  | cons n ns ih =>
      cases i with
      | zero =>
          cases j with
          | zero => exact absurd rfl h
          | succ j => simp [arenaModify, getN, List.getD]
      | succ i =>
          cases j with
          | zero => simp [arenaModify, getN, List.getD]
          | succ j =>
              simp only [arenaModify, getN, List.getD]
              exact ih i j (fun hc => h (by omega))

theorem getN_arenaModify_self (l : List Node) (i : Nat) (f : Node → Node)
    (h : i < l.length) :
    getN (arenaModify l i f) i = f (getN l i) := by
  induction l generalizing i with
  | nil => simp at h
  | cons n ns ih =>
      cases i with
      | zero => simp [arenaModify, getN, List.getD]
      | succ i =>
          simp only [List.length_cons] at h
          simp only [arenaModify, getN, List.getD]
          exact ih i (by omega)

theorem getN_append_lt (l : List Node) (n : Node) (j : Nat) (h : j < l.length) :
    getN (l ++ [n]) j = getN l j := by
  induction l generalizing j with
  | nil => simp at h
  | cons m ms ih =>
      cases j with
      | zero => rfl
      | succ j =>
          simp only [List.length_cons] at h
          simp only [List.cons_append, getN, List.getD]
          exact ih j (by omega)

theorem getN_append_eq (l : List Node) (n : Node) (j : Nat) (h : j = l.length) :
    getN (l ++ [n]) j = n := by
  subst h
  induction l with
  | nil => rfl
  | cons m ms ih => simp only [List.length_cons, List.cons_append, getN, List.getD]; exact ih

theorem getN_append_gt (l : List Node) (n : Node) (j : Nat) (h : l.length < j) :
    getN (l ++ [n]) j = NewNode .group := by
  induction l generalizing j with
  | nil =>
      cases j with
      | zero => simp at h
      | succ j => cases j <;> rfl
  | cons m ms ih =>
      cases j with
      | zero => simp at h
      | succ j =>
          simp only [List.length_cons] at h
          simp only [List.cons_append, getN, List.getD]
          exact ih j (by omega)

theorem getN_default (l : List Node) (j : Nat) (h : l.length ≤ j) :
    getN l j = NewNode .group := by
  simp [getN, List.getD, List.getElem?_eq_none h]

/-! ### `attach` lemmas -/

theorem attach_length (p : Parser) (k : NodeKind) (t : String) :
    (attach p k t).1.arena.length = p.arena.length + 1 := by
  simp [attach, arenaModify_length]

theorem attach_idx (p : Parser) (k : NodeKind) (t : String) :
    (attach p k t).2 = p.arena.length := rfl

theorem attach_root (p : Parser) (k : NodeKind) (t : String) :
    (attach p k t).1.root = p.root := rfl

theorem attach_curr (p : Parser) (k : NodeKind) (t : String) :
    (attach p k t).1.curr = p.curr := rfl

theorem attach_onAdd (p : Parser) (k : NodeKind) (t : String) :
    (attach p k t).1.onAdd = p.onAdd := rfl

theorem attach_getN_new (p : Parser) (k : NodeKind) (t : String) :
    getN (attach p k t).1.arena p.arena.length = ⟨k, t, some p.curr, []⟩ := by
  simp only [attach]
  exact getN_append_eq _ _ _ (arenaModify_length _ _ _).symm

theorem attach_getN_lt (p : Parser) (k : NodeKind) (t : String) (j : Nat)
    (h : j < p.arena.length) :
    getN (attach p k t).1.arena j =
      if j = p.curr then
        { getN p.arena j with childs := (getN p.arena j).childs ++ [p.arena.length] }
      else getN p.arena j := by
  simp only [attach]
  rw [getN_append_lt _ _ _ (by rw [arenaModify_length]; exact h)]
  by_cases hj : j = p.curr
  · subst hj
    simp [getN_arenaModify_self _ _ _ h]
  · simp [hj, getN_arenaModify_ne _ _ _ _ hj]

theorem attach_getN_kind (p : Parser) (k : NodeKind) (t : String) (j : Nat)
    (h : j < p.arena.length) :
    (getN (attach p k t).1.arena j).kind = (getN p.arena j).kind := by
  rw [attach_getN_lt p k t j h]
  split <;> rfl

theorem attach_getN_parent (p : Parser) (k : NodeKind) (t : String) (j : Nat)
    (h : j < p.arena.length) :
    (getN (attach p k t).1.arena j).parent = (getN p.arena j).parent := by
  rw [attach_getN_lt p k t j h]
  split <;> rfl

theorem attach_getN_text (p : Parser) (k : NodeKind) (t : String) (j : Nat)
    (h : j < p.arena.length) :
    (getN (attach p k t).1.arena j).text = (getN p.arena j).text := by
  rw [attach_getN_lt p k t j h]
  split <;> rfl

theorem attach_childs_mono (p : Parser) (k : NodeKind) (t : String) (j c : Nat)
    (h : c ∈ (getN p.arena j).childs) :
    c ∈ (getN (attach p k t).1.arena j).childs := by
  rcases lt_or_ge j p.arena.length with hj | hj
  · rw [attach_getN_lt p k t j hj]
    split
    · simp only [List.mem_append]
      exact Or.inl h
    · exact h
  · rw [getN_default _ _ hj] at h
    simp [NewNode, NewNodeWithText] at h

/-! ### `addNode` lemmas -/

theorem addNode_of_not_hooked (p : Parser) (k : NodeKind) (t : String)
    (h : p.onAdd = false) : addNode p k t = attach p k t := by
  simp [addNode, h]

theorem addNode_root (p : Parser) (k : NodeKind) (t : String) :
    (addNode p k t).1.root = p.root := by
  by_cases h : p.onAdd
  · simp only [addNode, h, if_true]
    split <;> rfl
  · simp only [addNode, h, Bool.false_eq_true, if_false]
    rfl

theorem addNode_curr (p : Parser) (k : NodeKind) (t : String) :
    (addNode p k t).1.curr = p.curr := by
  by_cases h : p.onAdd
  · simp only [addNode, h, if_true]
    split <;> rfl
  · simp only [addNode, h, Bool.false_eq_true, if_false]
    rfl

theorem addNode_onAdd (p : Parser) (k : NodeKind) (t : String) :
    (addNode p k t).1.onAdd = false := by
  by_cases h : p.onAdd
  · simp only [addNode, h, if_true]
    split <;> rfl
  · simp [addNode, h, attach_onAdd]

theorem addNode_length_lt (p : Parser) (k : NodeKind) (t : String) :
    p.arena.length < (addNode p k t).1.arena.length := by
  by_cases h : p.onAdd
  · simp only [addNode, h, if_true]
    split
    · rw [attach_length, attach_length]
      dsimp only
      omega
    · rw [attach_length]
      dsimp only
      omega
  · rw [addNode_of_not_hooked p k t (by simpa using h), attach_length]
    omega

theorem addNode_idx_ge (p : Parser) (k : NodeKind) (t : String) :
    p.arena.length ≤ (addNode p k t).2 := by
  by_cases h : p.onAdd
  · simp only [addNode, h, if_true]
    split
    · rw [attach_idx, attach_length]
      dsimp only
      omega
    · rw [attach_idx]
  · rw [addNode_of_not_hooked p k t (by simpa using h), attach_idx]

theorem attach_idx_lt (p : Parser) (k : NodeKind) (t : String) :
    (attach p k t).2 < (attach p k t).1.arena.length := by
  rw [attach_idx, attach_length]
  omega

theorem addNode_idx_lt (p : Parser) (k : NodeKind) (t : String) :
    (addNode p k t).2 < (addNode p k t).1.arena.length := by
  by_cases h : p.onAdd
  · simp only [addNode, h, if_true]
    split <;> exact attach_idx_lt _ _ _
  · rw [addNode_of_not_hooked p k t (by simpa using h)]
    exact attach_idx_lt _ _ _

theorem addNode_getN_main (p : Parser) (k : NodeKind) (t : String) :
    getN (addNode p k t).1.arena (addNode p k t).2 = ⟨k, t, some p.curr, []⟩ := by
  by_cases h : p.onAdd
  · simp only [addNode, h, if_true]
    split
    · rw [attach_idx, attach_getN_new]
      simp [attach_curr]
    · rw [attach_idx, attach_getN_new]
  · rw [addNode_of_not_hooked p k t (by simpa using h), attach_idx, attach_getN_new]

theorem attach_getN_ne (p : Parser) (k : NodeKind) (t : String) (j : Nat)
    (hj : j < p.arena.length) (hne : j ≠ p.curr) :
    getN (attach p k t).1.arena j = getN p.arena j := by
  rw [attach_getN_lt p k t j hj, if_neg hne]

theorem addNode_getN_ne (p : Parser) (k : NodeKind) (t : String) (j : Nat)
    (hj : j < p.arena.length) (hne : j ≠ p.curr) :
    getN (addNode p k t).1.arena j = getN p.arena j := by
  by_cases h : p.onAdd
  · simp only [addNode, h, if_true]
    split
    · rw [attach_getN_ne (attach { p with onAdd := false } .space "").1 k t j
          (by rw [attach_length]; exact Nat.lt_succ_of_lt hj) hne,
        attach_getN_ne { p with onAdd := false } .space "" j hj hne]
    · exact attach_getN_ne { p with onAdd := false } k t j hj hne
  · rw [addNode_of_not_hooked p k t (by simpa using h)]
    exact attach_getN_ne p k t j hj hne

theorem addNode_getN_kind (p : Parser) (k : NodeKind) (t : String) (j : Nat)
    (hj : j < p.arena.length) :
    (getN (addNode p k t).1.arena j).kind = (getN p.arena j).kind := by
  by_cases h : p.onAdd
  · simp only [addNode, h, if_true]
    split
    · rw [attach_getN_kind (attach { p with onAdd := false } .space "").1 k t j
          (by rw [attach_length]; exact Nat.lt_succ_of_lt hj),
        attach_getN_kind { p with onAdd := false } .space "" j hj]
    · rw [attach_getN_kind { p with onAdd := false } k t j hj]
  · rw [addNode_of_not_hooked p k t (by simpa using h), attach_getN_kind p k t j hj]

theorem addNode_getN_parent (p : Parser) (k : NodeKind) (t : String) (j : Nat)
    (hj : j < p.arena.length) :
    (getN (addNode p k t).1.arena j).parent = (getN p.arena j).parent := by
  by_cases h : p.onAdd
  · simp only [addNode, h, if_true]
    split
    · rw [attach_getN_parent (attach { p with onAdd := false } .space "").1 k t j
          (by rw [attach_length]; exact Nat.lt_succ_of_lt hj),
        attach_getN_parent { p with onAdd := false } .space "" j hj]
    · rw [attach_getN_parent { p with onAdd := false } k t j hj]
  · rw [addNode_of_not_hooked p k t (by simpa using h), attach_getN_parent p k t j hj]

theorem addNode_getN_text (p : Parser) (k : NodeKind) (t : String) (j : Nat)
    (hj : j < p.arena.length) :
    (getN (addNode p k t).1.arena j).text = (getN p.arena j).text := by
  by_cases h : p.onAdd
  · simp only [addNode, h, if_true]
    split
    · rw [attach_getN_text (attach { p with onAdd := false } .space "").1 k t j
          (by rw [attach_length]; exact Nat.lt_succ_of_lt hj),
        attach_getN_text { p with onAdd := false } .space "" j hj]
    · rw [attach_getN_text { p with onAdd := false } k t j hj]
  · rw [addNode_of_not_hooked p k t (by simpa using h), attach_getN_text p k t j hj]

theorem addNode_childs_mono (p : Parser) (k : NodeKind) (t : String) (j c : Nat)
    (h : c ∈ (getN p.arena j).childs) :
    c ∈ (getN (addNode p k t).1.arena j).childs := by
  by_cases h1 : p.onAdd
  · simp only [addNode, h1, if_true]
    split
    · exact attach_childs_mono _ _ _ _ _ (attach_childs_mono _ _ _ _ _ h)
    · exact attach_childs_mono _ _ _ _ _ h
  · rw [addNode_of_not_hooked p k t (by simpa using h1)]
    exact attach_childs_mono _ _ _ _ _ h

theorem addNode_getN_between (p : Parser) (k : NodeKind) (t : String) (j : Nat)
    (h1 : p.arena.length ≤ j) (h2 : j < (addNode p k t).1.arena.length) :
    (getN (addNode p k t).1.arena j).parent = some p.curr := by
  by_cases h : p.onAdd
  · by_cases hsp : (NewNodeWithText k t).IsTextNode
    · simp only [addNode, h, hsp, if_true] at h2 ⊢
      rw [attach_length, attach_length] at h2
      dsimp only at h2
      rcases Nat.lt_or_ge j (p.arena.length + 1) with hj | hj
      · have hj' : j = p.arena.length := by omega
        subst hj'
        rw [attach_getN_parent (attach { p with onAdd := false } .space "").1 k t _
            (by rw [attach_length]; dsimp only; omega)]
        rw [show (p.arena.length : Nat)
            = ({ p with onAdd := false } : Parser).arena.length from rfl, attach_getN_new]
      · have hj' : j = p.arena.length + 1 := by omega
        subst hj'
        rw [show (p.arena.length + 1 : Nat)
            = (attach ({ p with onAdd := false } : Parser) .space "").1.arena.length from by
              rw [attach_length]]
        rw [attach_getN_new]
        rfl
    · simp only [addNode, h, if_true] at h2 ⊢
      rw [if_neg hsp] at h2 ⊢
      rw [attach_length] at h2
      dsimp only at h2
      have hj' : j = p.arena.length := by omega
      subst hj'
      rw [show (p.arena.length : Nat)
          = ({ p with onAdd := false } : Parser).arena.length from rfl, attach_getN_new]
  · rw [addNode_of_not_hooked p k t (by simpa using h)] at h2 ⊢
    rw [attach_length] at h2
    have hj' : j = p.arena.length := by omega
    subst hj'
    rw [attach_getN_new]

theorem addNode_of_not_text (p : Parser) (k : NodeKind) (t : String)
    (h : (NewNodeWithText k t).IsTextNode = false) :
    addNode p k t = attach { p with onAdd := false } k t := by
  by_cases h1 : p.onAdd
  · simp [addNode, h1, h]
  · have h1' : p.onAdd = false := by simpa using h1
    simp only [addNode, h1', Bool.false_eq_true, if_false]
    cases p
    simp_all

theorem addNode_length_of_not_text (p : Parser) (k : NodeKind) (t : String)
    (h : (NewNodeWithText k t).IsTextNode = false) :
    (addNode p k t).1.arena.length = p.arena.length + 1 := by
  rw [addNode_of_not_text p k t h, attach_length]

theorem addNode_idx_of_not_text (p : Parser) (k : NodeKind) (t : String)
    (h : (NewNodeWithText k t).IsTextNode = false) :
    (addNode p k t).2 = p.arena.length := by
  rw [addNode_of_not_text p k t h, attach_idx]

theorem addNode_childs_curr_of_not_text (p : Parser) (k : NodeKind) (t : String)
    (h : (NewNodeWithText k t).IsTextNode = false) (hc : p.curr < p.arena.length) :
    (getN (addNode p k t).1.arena p.curr).childs
      = (getN p.arena p.curr).childs ++ [p.arena.length] := by
  rw [addNode_of_not_text p k t h,
    attach_getN_lt { p with onAdd := false } k t p.curr hc, if_pos rfl]

/-! ### `drainTokens` lemmas -/

theorem drainTokens_root (p : Parser) (toks : List Token) :
    (drainTokens p toks).root = p.root := by
  induction p, toks using drainTokens.induct <;>
    simp_all [drainTokens, addNode_root, closeAllGroups]

theorem drainTokens_curr (p : Parser) (toks : List Token) :
    (drainTokens p toks).curr = p.curr ∨ (drainTokens p toks).curr = p.root := by
  induction p, toks using drainTokens.induct <;>
    simp_all [drainTokens, addNode_curr, addNode_root, closeAllGroups, drainTokens_root]

theorem drainTokens_length_mono (p : Parser) (toks : List Token) :
    p.arena.length ≤ (drainTokens p toks).arena.length := by
  induction p, toks using drainTokens.induct <;>
    simp_all [drainTokens] <;>
    first
    | exact le_trans (le_of_lt (addNode_length_lt _ _ _)) (by assumption)
    | exact le_trans (le_of_lt (addNode_length_lt (closeAllGroups _) _ _)) (by assumption)

theorem drainTokens_getN_preserved (p : Parser) (toks : List Token) (j : Nat)
    (hj : j < p.arena.length) :
    (getN (drainTokens p toks).arena j).parent = (getN p.arena j).parent
    ∧ (getN (drainTokens p toks).arena j).kind = (getN p.arena j).kind
    ∧ (getN (drainTokens p toks).arena j).text = (getN p.arena j).text := by
  induction p, toks using drainTokens.induct with
  | case1 p => exact ⟨rfl, rfl, rfl⟩
  | case2 p s rest ih =>
      simp only [drainTokens]
      obtain ⟨h1, h2, h3⟩ := ih (lt_trans hj (addNode_length_lt (closeAllGroups p) .sect s))
      exact ⟨by rw [h1]; exact addNode_getN_parent (closeAllGroups p) .sect s j hj,
        by rw [h2]; exact addNode_getN_kind (closeAllGroups p) .sect s j hj,
        by rw [h3]; exact addNode_getN_text (closeAllGroups p) .sect s j hj⟩
  | case3 p s rest ih =>
      simp only [drainTokens]
      obtain ⟨h1, h2, h3⟩ := ih (lt_trans hj (addNode_length_lt _ _ _))
      exact ⟨by rw [h1, addNode_getN_parent p .text s j hj],
        by rw [h2, addNode_getN_kind p .text s j hj],
        by rw [h3, addNode_getN_text p .text s j hj]⟩
  | case4 p a t1 t2 rest2 hif ih =>
      simp only [drainTokens, hif, if_true]
      obtain ⟨h1, h2, h3⟩ := ih (lt_trans hj (addNode_length_lt _ _ _))
      exact ⟨by rw [h1, addNode_getN_parent p .textBold t1.text j hj],
        by rw [h2, addNode_getN_kind p .textBold t1.text j hj],
        by rw [h3, addNode_getN_text p .textBold t1.text j hj]⟩
  | case5 p a t1 t2 rest2 hif ih =>
      simp only [drainTokens, hif]
      simpa using ih hj
  | case6 p a t1 t2 rest2 hif ih =>
      simp only [drainTokens, hif, if_true]
      obtain ⟨h1, h2, h3⟩ := ih (lt_trans hj (addNode_length_lt _ _ _))
      exact ⟨by rw [h1, addNode_getN_parent p .textUnderline t1.text j hj],
        by rw [h2, addNode_getN_kind p .textUnderline t1.text j hj],
        by rw [h3, addNode_getN_text p .textUnderline t1.text j hj]⟩
  | case7 p a t1 t2 rest2 hif ih =>
      simp only [drainTokens, hif]
      simpa using ih hj
  | case8 p tok rest hk1 hk2 hk3 hk4 ih =>
      rcases tok with ⟨tk, tx⟩
      cases tk <;> simp_all [drainTokens]

theorem drainTokens_childs_mono (p : Parser) (toks : List Token) (j c : Nat)
    (h : c ∈ (getN p.arena j).childs) :
    c ∈ (getN (drainTokens p toks).arena j).childs := by
  induction p, toks using drainTokens.induct with
  | case1 p => exact h
  | case2 p s rest ih =>
      simp only [drainTokens]
      exact ih (addNode_childs_mono _ _ _ _ _ h)
  | case3 p s rest ih =>
      simp only [drainTokens]
      exact ih (addNode_childs_mono _ _ _ _ _ h)
  | case4 p a t1 t2 rest2 hif ih =>
      simp only [drainTokens, hif, if_true]
      exact ih (addNode_childs_mono _ _ _ _ _ h)
  | case5 p a t1 t2 rest2 hif ih =>
      simp only [drainTokens, hif]
      simpa using ih h
  | case6 p a t1 t2 rest2 hif ih =>
      simp only [drainTokens, hif, if_true]
      exact ih (addNode_childs_mono _ _ _ _ _ h)
  | case7 p a t1 t2 rest2 hif ih =>
      simp only [drainTokens, hif]
      simpa using ih h
  | case8 p tok rest hk1 hk2 hk3 hk4 ih =>
      rcases tok with ⟨tk, tx⟩
      cases tk <;> simp_all [drainTokens]

theorem drainTokens_parents_at_root (p : Parser) (toks : List Token)
    (hc : p.curr = p.root) :
    ∀ j, p.arena.length ≤ j → j < (drainTokens p toks).arena.length →
      (getN (drainTokens p toks).arena j).parent = some p.root := by
  induction p, toks using drainTokens.induct with
  | case1 p =>
      intro j h1 h2
      simp only [drainTokens] at h2
      omega
  | case2 p s rest ih =>
      intro j h1 h2
      simp only [drainTokens] at h2 ⊢
      rcases Nat.lt_or_ge j (addNode (closeAllGroups p) .sect s).1.arena.length with hj | hj
      · rw [(drainTokens_getN_preserved _ rest j hj).1]
        exact addNode_getN_between (closeAllGroups p) .sect s j h1 hj
      · have := ih (by rw [addNode_curr, addNode_root]; exact rfl) j hj h2
        rwa [addNode_root] at this
  | case3 p s rest ih =>
      intro j h1 h2
      simp only [drainTokens] at h2 ⊢
      rcases Nat.lt_or_ge j (addNode p .text s).1.arena.length with hj | hj
      · rw [(drainTokens_getN_preserved _ rest j hj).1]
        rw [addNode_getN_between p .text s j h1 hj, hc]
      · have := ih (by rw [addNode_curr, addNode_root]; exact hc) j hj h2
        rwa [addNode_root] at this
  | case4 p a t1 t2 rest2 hif ih =>
      intro j h1 h2
      simp only [drainTokens, hif, if_true] at h2 ⊢
      rcases Nat.lt_or_ge j (addNode p .textBold t1.text).1.arena.length with hj | hj
      · rw [(drainTokens_getN_preserved _ rest2 j hj).1]
        rw [addNode_getN_between p .textBold t1.text j h1 hj, hc]
      · have := ih (by rw [addNode_curr, addNode_root]; exact hc) j hj h2
        rwa [addNode_root] at this
  | case5 p a t1 t2 rest2 hif ih =>
      intro j h1 h2
      simp only [drainTokens, hif] at h2 ⊢
      simp only [Bool.false_eq_true, if_false] at h2 ⊢
      exact ih hc j h1 h2
  | case6 p a t1 t2 rest2 hif ih =>
      intro j h1 h2
      simp only [drainTokens, hif, if_true] at h2 ⊢
      rcases Nat.lt_or_ge j (addNode p .textUnderline t1.text).1.arena.length with hj | hj
      · rw [(drainTokens_getN_preserved _ rest2 j hj).1]
        rw [addNode_getN_between p .textUnderline t1.text j h1 hj, hc]
      · have := ih (by rw [addNode_curr, addNode_root]; exact hc) j hj h2
        rwa [addNode_root] at this
  | case7 p a t1 t2 rest2 hif ih =>
      intro j h1 h2
      simp only [drainTokens, hif] at h2 ⊢
      simp only [Bool.false_eq_true, if_false] at h2 ⊢
      exact ih hc j h1 h2
  | case8 p tok rest hk1 hk2 hk3 hk4 ih =>
      intro j h1 h2
      rcases tok with ⟨tk, tx⟩
      cases tk <;> simp_all [drainTokens]

/-! ### `climb`, `closeGroup`, `openGroups` lemmas -/

theorem climb_parent_none (arena : List Node) (fuel curr : Nat)
    (h : (getN arena curr).parent = none) : climb arena fuel curr = curr := by
  cases fuel <;> simp [climb, h]

theorem climb_stop (arena : List Node) (fuel curr : Nat)
    (hk : (getN arena curr).kind = .group) (hf : 0 < fuel) :
    climb arena fuel curr = curr := by
  cases fuel with
  | zero => omega
  | succ fuel =>
      simp only [climb]
      cases h : (getN arena curr).parent <;> simp [hk]

theorem closeGroup_arena (p : Parser) : (closeGroup p).arena = p.arena := by
  simp only [closeGroup]
  split <;> rfl

theorem closeGroup_root (p : Parser) : (closeGroup p).root = p.root := by
  simp only [closeGroup]
  split <;> rfl

theorem closeGroup_onAdd (p : Parser) : (closeGroup p).onAdd = p.onAdd := by
  simp only [closeGroup]
  split <;> rfl

theorem closeGroup_of_parent_none (p : Parser)
    (h : (getN p.arena p.curr).parent = none) : closeGroup p = p := by
  simp only [closeGroup, climb_parent_none p.arena p.arena.length p.curr h, h]

theorem closeGroup_of_group (p : Parser) (par : Nat)
    (hk : (getN p.arena p.curr).kind = .group)
    (hp : (getN p.arena p.curr).parent = some par) (hl : 0 < p.arena.length) :
    closeGroup p = { p with curr := par } := by
  simp only [closeGroup, climb_stop p.arena p.arena.length p.curr hk hl, hp]

theorem closeGroups_arena (k : Nat) (p : Parser) :
    (closeGroups k p).arena = p.arena := by
  induction k generalizing p with
  | zero => rfl
  | succ k ih => rw [closeGroups, ih, closeGroup_arena]

theorem closeGroups_root (k : Nat) (p : Parser) :
    (closeGroups k p).root = p.root := by
  induction k generalizing p with
  | zero => rfl
  | succ k ih => rw [closeGroups, ih, closeGroup_root]

theorem closeGroups_onAdd (k : Nat) (p : Parser) :
    (closeGroups k p).onAdd = p.onAdd := by
  induction k generalizing p with
  | zero => rfl
  | succ k ih => rw [closeGroups, ih, closeGroup_onAdd]

theorem openGroup_length (p : Parser) :
    (openGroup p).arena.length = p.arena.length + 1 := by
  simp only [openGroup, addNodeInto]
  rw [addNode_length_of_not_text p .group "" rfl]

theorem openGroup_curr (p : Parser) : (openGroup p).curr = p.arena.length := by
  simp only [openGroup, addNodeInto]
  rw [addNode_idx_of_not_text p .group "" rfl]

theorem openGroup_root (p : Parser) : (openGroup p).root = p.root := by
  simp only [openGroup, addNodeInto]
  rw [addNode_root]

theorem openGroup_getN_new (p : Parser) :
    getN (openGroup p).arena p.arena.length = ⟨.group, "", some p.curr, []⟩ := by
  simp only [openGroup, addNodeInto]
  rw [show (p.arena.length : Nat) = (addNode p .group "").2 from
      (addNode_idx_of_not_text p .group "" rfl).symm, addNode_getN_main]

theorem openGroup_getN_preserved (p : Parser) (j : Nat) (hj : j < p.arena.length) :
    (getN (openGroup p).arena j).kind = (getN p.arena j).kind
    ∧ (getN (openGroup p).arena j).parent = (getN p.arena j).parent := by
  simp only [openGroup, addNodeInto]
  exact ⟨addNode_getN_kind p .group "" j hj, addNode_getN_parent p .group "" j hj⟩

theorem openGroup_childs_mono (p : Parser) (j c : Nat)
    (h : c ∈ (getN p.arena j).childs) : c ∈ (getN (openGroup p).arena j).childs := by
  simp only [openGroup, addNodeInto]
  exact addNode_childs_mono p .group "" j c h

theorem openGroup_curr_childs (p : Parser) (h : p.curr < p.arena.length) :
    p.arena.length ∈ (getN (openGroup p).arena p.curr).childs := by
  simp only [openGroup, addNodeInto]
  rw [addNode_childs_curr_of_not_text p .group "" rfl h]
  simp

theorem openGroups_spec (k : Nat) (p : Parser) (h : p.curr < p.arena.length) :
    (openGroups k p).arena.length = p.arena.length + k
    ∧ (openGroups k p).root = p.root
    ∧ ((openGroups k p).curr = if k = 0 then p.curr else p.arena.length + k - 1)
    ∧ (∀ j, j < p.arena.length →
        (getN (openGroups k p).arena j).kind = (getN p.arena j).kind
        ∧ (getN (openGroups k p).arena j).parent = (getN p.arena j).parent)
    ∧ (∀ j c, c ∈ (getN p.arena j).childs → c ∈ (getN (openGroups k p).arena j).childs)
    ∧ (∀ i, p.arena.length ≤ i → i < p.arena.length + k →
        (getN (openGroups k p).arena i).kind = .group
        ∧ (getN (openGroups k p).arena i).parent
            = some (if i = p.arena.length then p.curr else i - 1)
        ∧ i ∈ (getN (openGroups k p).arena
            (if i = p.arena.length then p.curr else i - 1)).childs) := by
  induction k generalizing p with
  | zero =>
      refine ⟨rfl, rfl, by simp [openGroups], ?_, ?_, ?_⟩
      · exact fun j hj => ⟨rfl, rfl⟩
      · exact fun j c hc => hc
      · intro i hi1 hi2
        omega
  | succ k ih =>
      have hcurr' : (openGroup p).curr < (openGroup p).arena.length := by
        rw [openGroup_curr, openGroup_length]
        omega
      obtain ⟨ih1, ih2, ih3, ih4, ih5, ih6⟩ := ih (openGroup p) hcurr'
      rw [openGroup_length] at ih1 ih6
      refine ⟨?_, ?_, ?_, ?_, ?_, ?_⟩
      · rw [openGroups, ih1]
        omega
      · rw [openGroups, ih2, openGroup_root]
      · rw [openGroups, ih3, openGroup_curr]
        rcases Nat.eq_zero_or_pos k with hk | hk
        · simp [hk]
        · have : ¬ (k = 0) := by omega
          simp only [this, if_false, Nat.succ_ne_zero, openGroup_length]
          omega
      · intro j hj
        rw [openGroups]
        have hj' : j < (openGroup p).arena.length := by rw [openGroup_length]; omega
        obtain ⟨e1, e2⟩ := ih4 j hj'
        obtain ⟨f1, f2⟩ := openGroup_getN_preserved p j hj
        exact ⟨e1.trans f1, e2.trans f2⟩
      · intro j c hc
        rw [openGroups]
        exact ih5 j c (openGroup_childs_mono p j c hc)
      · intro i hi1 hi2
        rw [openGroups]
        rcases Nat.eq_or_lt_of_le hi1 with hi | hi
        · subst hi
          have hlt : p.arena.length < (openGroup p).arena.length := by
            rw [openGroup_length]; omega
          obtain ⟨e1, e2⟩ := ih4 p.arena.length hlt
          refine ⟨?_, ?_, ?_⟩
          · rw [e1, openGroup_getN_new]
          · rw [e2, openGroup_getN_new]
            simp
          · simp only [if_pos rfl]
            exact ih5 p.curr p.arena.length (openGroup_curr_childs p h)
        · have hge : p.arena.length + 1 ≤ i := hi
          have hlt2 : i < p.arena.length + 1 + k := by omega
          obtain ⟨g1, g2, g3⟩ := ih6 i hge hlt2
          have hne : ¬ (i = p.arena.length) := by omega
          refine ⟨g1, ?_, ?_⟩
          · rw [g2, if_neg hne]
            rcases Nat.eq_or_lt_of_le hge with hi' | hi'
            · rw [← hi']
              simp [openGroup_curr]
            · have : ¬ (i = p.arena.length + 1) := by omega
              simp [this]
          · rw [if_neg hne]
            rcases Nat.eq_or_lt_of_le hge with hi' | hi'
            · rw [← hi'] at g3 ⊢
              simpa [openGroup_curr] using g3
            · have : ¬ (i = p.arena.length + 1) := by omega
              simpa [this] using g3

/-- A parent path from a node up to `g` that passes only through non-Group
nodes — the List/ListItem/Block wrappers that `closeGroup`'s ancestor walk
skips.  Indices strictly decrease along the path (as they do for every
parent link the parser creates). -/
inductive wrapChain (arena : List Node) : Nat → Nat → Prop where
  | refl (g : Nat) : wrapChain arena g g
  | step (c par g : Nat) : (getN arena c).kind ≠ .group →
      (getN arena c).parent = some par → par < c →
      wrapChain arena par g → wrapChain arena c g

theorem climb_of_wrapChain (arena : List Node) (c g : Nat)
    (hch : wrapChain arena c g) (hg : (getN arena g).kind = .group) :
    ∀ fuel, c < fuel → climb arena fuel c = g := by
  induction hch with
  | refl g0 =>
      intro fuel hf
      cases fuel with
      | zero => rfl
      | succ fuel =>
          rw [climb]
          cases hp : (getN arena g0).parent with
          | none => rfl
          | some par =>
              dsimp only
              rw [if_pos hg]
  | step c par g0 hknot hpar hlt hch ih =>
      intro fuel hf
      cases fuel with
      | zero => omega
      | succ fuel =>
          rw [climb, hpar]
          dsimp only
          rw [if_neg hknot]
          exact ih hg fuel (by omega)

theorem closeGroup_of_wrapChain (p : Parser) (g par : Nat)
    (hch : wrapChain p.arena p.curr g) (hg : (getN p.arena g).kind = .group)
    (hpar : (getN p.arena g).parent = some par) (hc : p.curr < p.arena.length) :
    closeGroup p = { p with curr := par } := by
  have hcl := climb_of_wrapChain p.arena p.curr g hch hg p.arena.length hc
  simp only [closeGroup, hcl, hpar]

/-- Closing `k` levels from a state whose `curr` hangs below the top of a
`k`-long Group chain through an arbitrary run of non-Group wrappers returns
`curr` to the node below the chain: the first `closeGroup` walks up through
the wrappers to the first Group and steps above it, the remaining ones
ascend the chain one Group at a time. -/
theorem closeGroups_chain_wrap (k : Nat) (q : Parser) (len base : Nat)
    (hnodes : ∀ i, i < len + k → len ≤ i →
      (getN q.arena i).kind = .group
      ∧ (getN q.arena i).parent = some (if i = len then base else i - 1))
    (hcurr0 : k = 0 → q.curr = base)
    (hcurrS : 0 < k → wrapChain q.arena q.curr (len + k - 1) ∧ q.curr < q.arena.length) :
    (closeGroups k q).curr = base := by
  induction k generalizing q with
  | zero => exact hcurr0 rfl
  | succ k ih =>
      obtain ⟨hch, hclt⟩ := hcurrS (Nat.succ_pos k)
      have htop : len + (k + 1) - 1 = len + k := by omega
      rw [htop] at hch
      obtain ⟨hk1, hp1⟩ := hnodes (len + k) (by omega) (by omega)
      have hlt2 : len + k < q.arena.length := by
        by_contra hcon
        push_neg at hcon
        rw [getN_default _ _ hcon] at hp1
        simp [NewNode, NewNodeWithText] at hp1
      have hstep : closeGroup q
          = { q with curr := (if len + k = len then base else len + k - 1) } :=
        closeGroup_of_wrapChain q (len + k) _ hch hk1 hp1 hclt
      rw [closeGroups, hstep]
      apply ih
      · intro i h1 h2
        exact hnodes i (by omega) h2
      · intro hk0
        subst hk0
        simp
      · intro hkpos
        have hne : ¬ (len + k = len) := by omega
        constructor
        · show wrapChain q.arena (if len + k = len then base else len + k - 1) (len + k - 1)
          rw [if_neg hne]
          exact wrapChain.refl _
        · show (if len + k = len then base else len + k - 1) < q.arena.length
          rw [if_neg hne]
          omega

theorem closeGroups_chain (k : Nat) (q : Parser) (len base : Nat)
    (hnodes : ∀ i, len ≤ i → i < len + k →
      (getN q.arena i).kind = .group
      ∧ (getN q.arena i).parent = some (if i = len then base else i - 1))
    (hcurr0 : k = 0 → q.curr = base)
    (hcurrS : 0 < k → q.curr = len + k - 1) :
    (closeGroups k q).curr = base := by
  induction k generalizing q with
  | zero => exact hcurr0 rfl
  | succ k ih =>
      have hc : q.curr = len + k := by
        have := hcurrS (Nat.succ_pos k)
        omega
      obtain ⟨hk1, hp1⟩ := hnodes (len + k) (by omega) (by omega)
      have hlt : len + k < q.arena.length := by
        by_contra hcon
        push_neg at hcon
        rw [getN_default _ _ hcon] at hp1
        simp [NewNode, NewNodeWithText] at hp1
      have hstep : closeGroup q
          = { q with curr := (if len + k = len then base else len + k - 1) } := by
        apply closeGroup_of_group
        · rw [hc]; exact hk1
        · rw [hc]; exact hp1
        · omega
      rw [closeGroups, hstep]
      apply ih
      · intro i h1 h2
        exact hnodes i h1 (by omega)
      · intro hk0
        subst hk0
        simp
      · intro hkpos
        have : ¬ (len + k = len) := by omega
        simp [this]

/-! ### The structural invariant of the parser state

`InvA` collects the structural facts that every operation of the parser
preserves: the arena is nonempty, node 0 is the parentless Group root,
every other node's parent has a smaller index, indices are in range, List
nodes have only ListItem children (seen from both the child list and the
parent back-reference).  `Inv` additionally records that the current node is
never a List node at the operation boundaries (inside the list-item step it
transiently is, and the step re-establishes the invariant). -/

structure InvA (p : Parser) : Prop where
  sizePos : 0 < p.arena.length
  rootIdx : p.root = 0
  rootParent : (getN p.arena 0).parent = none
  rootKind : (getN p.arena 0).kind = .group
  parentLt : ∀ i, 0 < i → i < p.arena.length →
      ∃ j, (getN p.arena i).parent = some j ∧ j < i
  currLt : p.curr < p.arena.length
  childsLt : ∀ i c, c ∈ (getN p.arena i).childs → c < p.arena.length
  listChilds : ∀ i c, (getN p.arena i).kind = .list → c ∈ (getN p.arena i).childs →
      (getN p.arena c).kind = .listItem
  parentList : ∀ i j, (getN p.arena i).parent = some j →
      (getN p.arena j).kind = .list → (getN p.arena i).kind = .listItem

structure Inv (p : Parser) extends InvA p : Prop where
  currNotList : (getN p.arena p.curr).kind ≠ .list

theorem InvA_set_onAdd (p : Parser) (b : Bool) (hA : InvA p) :
    InvA { p with onAdd := b } :=
  ⟨hA.sizePos, hA.rootIdx, hA.rootParent, hA.rootKind, hA.parentLt, hA.currLt,
    hA.childsLt, hA.listChilds, hA.parentList⟩

theorem Inv_set_onAdd (p : Parser) (b : Bool) (hI : Inv p) :
    Inv { p with onAdd := b } :=
  ⟨InvA_set_onAdd p b hI.toInvA, hI.currNotList⟩

theorem isTextNode_ne_listItem (k : NodeKind) (t : String)
    (h : (NewNodeWithText k t).IsTextNode = true) : k ≠ .listItem := by
  cases k <;> simp [NewNodeWithText, Node.IsTextNode] at h ⊢

theorem attach_InvA (p : Parser) (k : NodeKind) (t : String) (hA : InvA p)
    (hsafe : (getN p.arena p.curr).kind = .list → k = .listItem) :
    InvA (attach p k t).1 := by
  have hlen := attach_length p k t
  refine ⟨?_, ?_, ?_, ?_, ?_, ?_, ?_, ?_, ?_⟩
  · rw [hlen]
    omega
  · rw [attach_root]
    exact hA.rootIdx
  · rw [attach_getN_parent p k t 0 hA.sizePos]
    exact hA.rootParent
  · rw [attach_getN_kind p k t 0 hA.sizePos]
    exact hA.rootKind
  · intro i hi0 hilen
    rw [hlen] at hilen
    rcases Nat.lt_or_ge i p.arena.length with hi | hi
    · obtain ⟨j, hj1, hj2⟩ := hA.parentLt i hi0 hi
      exact ⟨j, by rw [attach_getN_parent p k t i hi]; exact hj1, hj2⟩
    · have hi' : i = p.arena.length := by omega
      subst hi'
      exact ⟨p.curr, by rw [attach_getN_new], hA.currLt⟩
  · rw [attach_curr, hlen]
    exact Nat.lt_succ_of_lt hA.currLt
  · intro i c hc
    rw [hlen]
    rcases Nat.lt_or_ge i p.arena.length with hi | hi
    · rw [attach_getN_lt p k t i hi] at hc
      by_cases hcur : i = p.curr
      · rw [if_pos hcur] at hc
        simp only [List.mem_append, List.mem_singleton] at hc
        rcases hc with hc | hc
        · exact Nat.lt_succ_of_lt (hA.childsLt i c hc)
        · omega
      · rw [if_neg hcur] at hc
        exact Nat.lt_succ_of_lt (hA.childsLt i c hc)
    · rcases Nat.eq_or_lt_of_le hi with hi' | hi'
      · rw [← hi', attach_getN_new] at hc
        simp at hc
      · rw [getN_default _ _ (by rw [hlen]; omega)] at hc
        simp [NewNode, NewNodeWithText] at hc
  · intro i c hkind hc
    rcases Nat.lt_or_ge i p.arena.length with hi | hi
    · have hkind' : (getN p.arena i).kind = .list := by
        rw [← attach_getN_kind p k t i hi]
        exact hkind
      rw [attach_getN_lt p k t i hi] at hc
      by_cases hcur : i = p.curr
      · rw [if_pos hcur] at hc
        simp only [List.mem_append, List.mem_singleton] at hc
        rcases hc with hc | hc
        · have hclt : c < p.arena.length := hA.childsLt i c hc
          rw [attach_getN_kind p k t c hclt]
          exact hA.listChilds i c hkind' hc
        · subst hc
          rw [attach_getN_new]
          subst hcur
          exact hsafe hkind'
      · rw [if_neg hcur] at hc
        have hclt : c < p.arena.length := hA.childsLt i c hc
        rw [attach_getN_kind p k t c hclt]
        exact hA.listChilds i c hkind' hc
    · rcases Nat.eq_or_lt_of_le hi with hi' | hi'
      · rw [← hi', attach_getN_new] at hc
        simp at hc
      · rw [getN_default _ _ (by rw [hlen]; omega)] at hc
        simp [NewNode, NewNodeWithText] at hc
  · intro i j hpar hklist
    rcases Nat.lt_or_ge i p.arena.length with hi | hi
    · have hpar' : (getN p.arena i).parent = some j := by
        rw [← attach_getN_parent p k t i hi]
        exact hpar
      have hi0 : 0 < i := by
        rcases Nat.eq_zero_or_pos i with h0 | h0
        · subst h0
          rw [hA.rootParent] at hpar'
          cases hpar'
        · exact h0
      obtain ⟨j', hj1, hj2⟩ := hA.parentLt i hi0 hi
      have hjj : j = j' := by
        rw [hpar'] at hj1
        exact Option.some.inj hj1
      subst hjj
      have hjlt : j < p.arena.length := lt_trans hj2 hi
      have hkj : (getN p.arena j).kind = .list := by
        rw [← attach_getN_kind p k t j hjlt]
        exact hklist
      rw [attach_getN_kind p k t i hi]
      exact hA.parentList i j hpar' hkj
    · rcases Nat.eq_or_lt_of_le hi with hi' | hi'
      · subst hi'
        rw [attach_getN_new] at hpar ⊢
        have hj : j = p.curr := by
          simp at hpar
          omega
        subst hj
        have hkcur : (getN p.arena p.curr).kind = .list := by
          rw [← attach_getN_kind p k t p.curr hA.currLt]
          exact hklist
        simp [hsafe hkcur]
      · rw [getN_default _ _ (by rw [hlen]; omega)] at hpar
        simp [NewNode, NewNodeWithText] at hpar

theorem attach_Inv (p : Parser) (k : NodeKind) (t : String) (hI : Inv p) :
    Inv (attach p k t).1 := by
  refine ⟨attach_InvA p k t hI.toInvA (fun hl => absurd hl hI.currNotList), ?_⟩
  rw [attach_curr, attach_getN_kind p k t p.curr hI.currLt]
  exact hI.currNotList

theorem addNode_InvA (p : Parser) (k : NodeKind) (t : String) (hA : InvA p)
    (hsafe : (getN p.arena p.curr).kind = .list → k = .listItem) :
    InvA (addNode p k t).1 := by
  by_cases h : p.onAdd
  · simp only [addNode, h, if_true]
    by_cases ht : (NewNodeWithText k t).IsTextNode
    · simp only [ht, if_true]
      have hA1 : InvA ({ p with onAdd := false } : Parser) := InvA_set_onAdd p false hA
      have hsafe1 : (getN ({ p with onAdd := false } : Parser).arena
          ({ p with onAdd := false } : Parser).curr).kind = .list → NodeKind.space = .listItem :=
        fun hl => absurd (hsafe hl) (isTextNode_ne_listItem k t ht)
      have hA2 := attach_InvA { p with onAdd := false } .space "" hA1 hsafe1
      refine attach_InvA _ k t hA2 ?_
      intro hl
      refine hsafe ?_
      rw [← attach_getN_kind { p with onAdd := false } .space "" p.curr hA.currLt]
      exact hl
    · simp only [ht, Bool.false_eq_true, if_false]
      exact attach_InvA _ k t (InvA_set_onAdd p false hA) hsafe
  · rw [addNode_of_not_hooked p k t (by simpa using h)]
    exact attach_InvA p k t hA hsafe

theorem addNode_Inv (p : Parser) (k : NodeKind) (t : String) (hI : Inv p) :
    Inv (addNode p k t).1 := by
  refine ⟨addNode_InvA p k t hI.toInvA (fun hl => absurd hl hI.currNotList), ?_⟩
  rw [addNode_curr]
  rw [addNode_getN_kind p k t p.curr hI.currLt]
  exact hI.currNotList

theorem addNodeInto_InvA (p : Parser) (k : NodeKind) (t : String) (hA : InvA p)
    (hsafe : (getN p.arena p.curr).kind = .list → k = .listItem) :
    InvA (addNodeInto p k t)
    ∧ (getN (addNodeInto p k t).arena (addNodeInto p k t).curr).kind = k := by
  have hA' := addNode_InvA p k t hA hsafe
  constructor
  · exact ⟨by simpa [addNodeInto] using hA'.sizePos,
      by simpa [addNodeInto] using hA'.rootIdx,
      by simpa [addNodeInto] using hA'.rootParent,
      by simpa [addNodeInto] using hA'.rootKind,
      by simpa [addNodeInto] using hA'.parentLt,
      by simp only [addNodeInto]; exact addNode_idx_lt p k t,
      by simpa [addNodeInto] using hA'.childsLt,
      by simpa [addNodeInto] using hA'.listChilds,
      by simpa [addNodeInto] using hA'.parentList⟩
  · simp only [addNodeInto]
    rw [addNode_getN_main]

theorem addNodeInto_Inv (p : Parser) (k : NodeKind) (t : String) (hI : Inv p)
    (hk : k ≠ .list) : Inv (addNodeInto p k t) := by
  obtain ⟨hA, hkind⟩ :=
    addNodeInto_InvA p k t hI.toInvA (fun hl => absurd hl hI.currNotList)
  exact ⟨hA, by rw [hkind]; exact hk⟩

/-! ### Invariant preservation through the parser operations -/

theorem closeAllGroups_Inv (p : Parser) (hI : Inv p) : Inv (closeAllGroups p) := by
  have hr0 : p.root = 0 := hI.rootIdx
  refine ⟨⟨hI.sizePos, hI.rootIdx, hI.rootParent, hI.rootKind, hI.parentLt, ?_,
    hI.childsLt, hI.listChilds, hI.parentList⟩, ?_⟩
  · show p.root < p.arena.length
    rw [hr0]
    exact hI.sizePos
  · show (getN p.arena p.root).kind ≠ .list
    rw [hr0, hI.rootKind]
    simp

theorem openGroup_Inv (p : Parser) (hI : Inv p) : Inv (openGroup p) :=
  addNodeInto_Inv p .group "" hI (by simp)

theorem openGroups_Inv (k : Nat) (p : Parser) (hI : Inv p) :
    Inv (openGroups k p) := by
  induction k generalizing p with
  | zero => exact hI
  | succ k ih => exact ih (openGroup p) (openGroup_Inv p hI)

theorem climb_spec (p : Parser) (hA : InvA p) :
    ∀ fuel curr, curr < p.arena.length → curr < fuel →
      climb p.arena fuel curr < p.arena.length
      ∧ ((getN p.arena (climb p.arena fuel curr)).parent = none
         ∨ (getN p.arena (climb p.arena fuel curr)).kind = .group) := by
  intro fuel
  induction fuel with
  | zero =>
      intro curr h1 h2
      omega
  | succ fuel ih =>
      intro curr h1 h2
      rw [climb]
      cases hp : (getN p.arena curr).parent with
      | none => exact ⟨h1, Or.inl hp⟩
      | some par =>
          dsimp only
          by_cases hk : (getN p.arena curr).kind = .group
          · rw [if_pos hk]
            exact ⟨h1, Or.inr hk⟩
          · rw [if_neg hk]
            have h0 : 0 < curr := by
              rcases Nat.eq_zero_or_pos curr with hc | hc
              · subst hc
                rw [hA.rootParent] at hp
                cases hp
              · exact hc
            obtain ⟨j, hj1, hj2⟩ := hA.parentLt curr h0 h1
            have hpar : par = j := by
              rw [hp] at hj1
              exact Option.some.inj hj1
            subst hpar
            exact ih par (lt_trans hj2 h1) (by omega)

theorem closeGroup_curr_none (p : Parser)
    (h : (getN p.arena (climb p.arena p.arena.length p.curr)).parent = none) :
    closeGroup p = { p with curr := climb p.arena p.arena.length p.curr } := by
  simp only [closeGroup, h]

theorem closeGroup_curr_some (p : Parser) (par : Nat)
    (h : (getN p.arena (climb p.arena p.arena.length p.curr)).parent = some par) :
    closeGroup p = { p with curr := par } := by
  simp only [closeGroup, h]

theorem closeGroup_Inv (p : Parser) (hI : Inv p) : Inv (closeGroup p) := by
  obtain ⟨hclt, hdisj⟩ :=
    climb_spec p hI.toInvA p.arena.length p.curr hI.currLt hI.currLt
  cases hp : (getN p.arena (climb p.arena p.arena.length p.curr)).parent with
  | none =>
      rw [closeGroup_curr_none p hp]
      have hc0 : climb p.arena p.arena.length p.curr = 0 := by
        rcases Nat.eq_zero_or_pos (climb p.arena p.arena.length p.curr) with h0 | h0
        · exact h0
        · obtain ⟨j, hj1, _⟩ := hI.parentLt _ h0 hclt
          rw [hp] at hj1
          cases hj1
      refine ⟨⟨hI.sizePos, hI.rootIdx, hI.rootParent, hI.rootKind, hI.parentLt, ?_,
        hI.childsLt, hI.listChilds, hI.parentList⟩, ?_⟩
      · show climb p.arena p.arena.length p.curr < p.arena.length
        exact hclt
      · show (getN p.arena (climb p.arena p.arena.length p.curr)).kind ≠ .list
        rw [hc0, hI.rootKind]
        simp
  | some par =>
      rw [closeGroup_curr_some p par hp]
      have hkc : (getN p.arena (climb p.arena p.arena.length p.curr)).kind = .group := by
        rcases hdisj with hd | hd
        · rw [hp] at hd
          cases hd
        · exact hd
      have hc0 : 0 < climb p.arena p.arena.length p.curr := by
        rcases Nat.eq_zero_or_pos (climb p.arena p.arena.length p.curr) with h0 | h0
        · rw [h0] at hp
          rw [hI.rootParent] at hp
          cases hp
        · exact h0
      obtain ⟨j, hj1, hj2⟩ := hI.parentLt _ hc0 hclt
      have hpar : par = j := by
        rw [hp] at hj1
        exact Option.some.inj hj1
      subst hpar
      refine ⟨⟨hI.sizePos, hI.rootIdx, hI.rootParent, hI.rootKind, hI.parentLt, ?_,
        hI.childsLt, hI.listChilds, hI.parentList⟩, ?_⟩
      · show par < p.arena.length
        omega
      · show (getN p.arena par).kind ≠ .list
        intro hlist
        have := hI.parentList _ par hp hlist
        rw [hkc] at this
        cases this

theorem closeGroups_Inv (k : Nat) (p : Parser) (hI : Inv p) :
    Inv (closeGroups k p) := by
  induction k generalizing p with
  | zero => exact hI
  | succ k ih => exact ih (closeGroup p) (closeGroup_Inv p hI)

theorem levelStep_Inv (p : Parser) (ll lv : Nat) (hI : Inv p) :
    Inv (levelStep p ll lv) := by
  rw [levelStep]
  split
  · exact openGroups_Inv _ p hI
  · exact closeGroups_Inv _ p hI

theorem blockItemStep_Inv (p : Parser) (g : List Token) (hI : Inv p) :
    Inv (blockItemStep p g).1 := by
  rw [blockItemStep.eq_def]
  split
  · cases g with
    | nil => exact hI
    | cons item rest =>
        simp only
        split
        · exact addNode_Inv p .text item.text hI
        · exact addNode_Inv _ .text item.text (addNodeInto_Inv p .block "" hI (by simp))
  · exact hI

theorem listItemStep_Inv (p : Parser) (g : List Token) (hI : Inv p) :
    Inv (listItemStep p g).1 := by
  rw [listItemStep.eq_def]
  split
  · cases g with
    | nil => exact hI
    | cons item rest =>
        simp only
        cases hk : (getN p.arena p.curr).kind with
        | list => exact absurd hk hI.currNotList
        | listItem =>
            simp only
            have hc0 : 0 < p.curr := by
              rcases Nat.eq_zero_or_pos p.curr with h0 | h0
              · rw [h0, hI.rootKind] at hk
                cases hk
              · exact h0
            obtain ⟨j, hj1, hj2⟩ := hI.parentLt p.curr hc0 hI.currLt
            have hq : ({ p with curr := (getN p.arena p.curr).parent.getD p.curr } : Parser)
                = { p with curr := j } := by
              rw [hj1]
              rfl
            rw [hq]
            have hAq : InvA ({ p with curr := j } : Parser) :=
              ⟨hI.sizePos, hI.rootIdx, hI.rootParent, hI.rootKind, hI.parentLt,
                (by show j < p.arena.length; have := hI.currLt; omega),
                hI.childsLt, hI.listChilds, hI.parentList⟩
            obtain ⟨hA2, hkind2⟩ :=
              addNodeInto_InvA { p with curr := j } .listItem item.text hAq (fun _ => rfl)
            exact ⟨hA2, by rw [hkind2]; simp⟩
        | group =>
            simp only
            obtain ⟨hA1, hk1⟩ := addNodeInto_InvA p .list "" hI.toInvA
              (fun hl => absurd hl hI.currNotList)
            obtain ⟨hA2, hkind2⟩ :=
              addNodeInto_InvA _ .listItem item.text hA1 (fun _ => rfl)
            exact ⟨hA2, by rw [hkind2]; simp⟩
        | block =>
            simp only
            obtain ⟨hA1, hk1⟩ := addNodeInto_InvA p .list "" hI.toInvA
              (fun hl => absurd hl hI.currNotList)
            obtain ⟨hA2, hkind2⟩ :=
              addNodeInto_InvA _ .listItem item.text hA1 (fun _ => rfl)
            exact ⟨hA2, by rw [hkind2]; simp⟩
        | sect =>
            simp only
            obtain ⟨hA1, hk1⟩ := addNodeInto_InvA p .list "" hI.toInvA
              (fun hl => absurd hl hI.currNotList)
            obtain ⟨hA2, hkind2⟩ :=
              addNodeInto_InvA _ .listItem item.text hA1 (fun _ => rfl)
            exact ⟨hA2, by rw [hkind2]; simp⟩
        | text =>
            simp only
            obtain ⟨hA1, hk1⟩ := addNodeInto_InvA p .list "" hI.toInvA
              (fun hl => absurd hl hI.currNotList)
            obtain ⟨hA2, hkind2⟩ :=
              addNodeInto_InvA _ .listItem item.text hA1 (fun _ => rfl)
            exact ⟨hA2, by rw [hkind2]; simp⟩
        | textBold =>
            simp only
            obtain ⟨hA1, hk1⟩ := addNodeInto_InvA p .list "" hI.toInvA
              (fun hl => absurd hl hI.currNotList)
            obtain ⟨hA2, hkind2⟩ :=
              addNodeInto_InvA _ .listItem item.text hA1 (fun _ => rfl)
            exact ⟨hA2, by rw [hkind2]; simp⟩
        | textUnderline =>
            simp only
            obtain ⟨hA1, hk1⟩ := addNodeInto_InvA p .list "" hI.toInvA
              (fun hl => absurd hl hI.currNotList)
            obtain ⟨hA2, hkind2⟩ :=
              addNodeInto_InvA _ .listItem item.text hA1 (fun _ => rfl)
            exact ⟨hA2, by rw [hkind2]; simp⟩
        | space =>
            simp only
            obtain ⟨hA1, hk1⟩ := addNodeInto_InvA p .list "" hI.toInvA
              (fun hl => absurd hl hI.currNotList)
            obtain ⟨hA2, hkind2⟩ :=
              addNodeInto_InvA _ .listItem item.text hA1 (fun _ => rfl)
            exact ⟨hA2, by rw [hkind2]; simp⟩
        | brk =>
            simp only
            obtain ⟨hA1, hk1⟩ := addNodeInto_InvA p .list "" hI.toInvA
              (fun hl => absurd hl hI.currNotList)
            obtain ⟨hA2, hkind2⟩ :=
              addNodeInto_InvA _ .listItem item.text hA1 (fun _ => rfl)
            exact ⟨hA2, by rw [hkind2]; simp⟩
  · exact hI

theorem armSpaceHook_Inv (p : Parser) (hI : Inv p) : Inv (armSpaceHook p) := by
  rw [armSpaceHook]
  split
  · exact Inv_set_onAdd p true hI
  · exact hI

theorem drainTokens_Inv (p : Parser) (toks : List Token) (hI : Inv p) :
    Inv (drainTokens p toks) := by
  induction p, toks using drainTokens.induct with
  | case1 p => exact hI
  | case2 p s rest ih =>
      rw [drainTokens]
      exact ih (addNode_Inv _ .sect s (closeAllGroups_Inv p hI))
  | case3 p s rest ih =>
      rw [drainTokens]
      exact ih (addNode_Inv p .text s hI)
  | case4 p a t1 t2 rest2 hif ih =>
      rw [drainTokens, if_pos hif]
      exact ih (addNode_Inv p .textBold t1.text hI)
  | case5 p a t1 t2 rest2 hif ih =>
      rw [drainTokens, if_neg (by simpa using hif)]
      exact ih hI
  | case6 p a t1 t2 rest2 hif ih =>
      rw [drainTokens, if_pos hif]
      exact ih (addNode_Inv p .textUnderline t1.text hI)
  | case7 p a t1 t2 rest2 hif ih =>
      rw [drainTokens, if_neg (by simpa using hif)]
      exact ih hI
  | case8 p tok rest hk1 hk2 hk3 hk4 ih =>
      rcases tok with ⟨tk, tx⟩
      cases tk <;> simp_all [drainTokens]

theorem processGroup_Inv (p : Parser) (ll : Nat) (first : Bool) (g : TokenGroup)
    (hI : Inv p) : Inv (processGroup p ll first g).1 := by
  rw [processGroup]
  split
  · exact addNode_Inv _ .brk "" (closeAllGroups_Inv p hI)
  · exact Inv_set_onAdd _ false (drainTokens_Inv _ _ (armSpaceHook_Inv _
      (listItemStep_Inv _ _ (blockItemStep_Inv _ _ (levelStep_Inv p ll g.level hI)))))

theorem processGroupsAux_Inv (gs : List TokenGroup) (p : Parser) (ll : Nat)
    (first : Bool) (hI : Inv p) : Inv (processGroupsAux p ll first gs) := by
  induction gs generalizing p ll first with
  | nil => exact hI
  | cons g gs ih =>
      rw [processGroupsAux]
      exact ih _ _ _ (processGroup_Inv p ll first g hI)

theorem parserInit_Inv : Inv parserInit := by
  refine ⟨⟨?_, ?_, ?_, ?_, ?_, ?_, ?_, ?_, ?_⟩, ?_⟩
  · simp [parserInit]
  · rfl
  · rfl
  · rfl
  · intro i h1 h2
    simp only [parserInit, List.length_singleton] at h2
    omega
  · simp [parserInit]
  · intro i c hc
    exfalso
    rcases Nat.lt_or_ge i 1 with hi | hi
    · have hi0 : i = 0 := by omega
      subst hi0
      simp [parserInit, getN, List.getD, NewNode, NewNodeWithText] at hc
    · rw [getN_default _ _ (by simpa [parserInit] using hi)] at hc
      simp [NewNode, NewNodeWithText] at hc
  · intro i c hk hc
    exfalso
    rcases Nat.lt_or_ge i 1 with hi | hi
    · have hi0 : i = 0 := by omega
      subst hi0
      simp [parserInit, getN, List.getD, NewNode, NewNodeWithText] at hc
    · rw [getN_default _ _ (by simpa [parserInit] using hi)] at hc
      simp [NewNode, NewNodeWithText] at hc
  · intro i j hp hk
    exfalso
    rcases Nat.lt_or_ge i 1 with hi | hi
    · have hi0 : i = 0 := by omega
      subst hi0
      simp [parserInit, getN, List.getD, NewNode, NewNodeWithText] at hp
    · rw [getN_default _ _ (by simpa [parserInit] using hi)] at hp
      simp [NewNode, NewNodeWithText] at hp
  · show (getN parserInit.arena parserInit.curr).kind ≠ .list
    simp [parserInit, getN, List.getD, NewNode, NewNodeWithText]

theorem Parse_Inv (tokens : List Token) (q : Parser) (h : Parse tokens = some q) :
    Inv q := by
  rw [Parse] at h
  split at h
  · cases h
    exact parserInit_Inv
  · split at h
    · cases h
    · cases h
      exact processGroupsAux_Inv _ parserInit 0 true parserInit_Inv

theorem reaches_of_InvA (p : Parser) (hA : InvA p) :
    ∀ i, i < p.arena.length → reachesRoot p.arena i := by
  intro i
  induction i using Nat.strong_induction_on with
  | _ i ih =>
      intro hi
      rcases Nat.eq_zero_or_pos i with h0 | h0
      · subst h0
        exact ⟨0, rfl⟩
      · obtain ⟨j, hj1, hj2⟩ := hA.parentLt i h0 hi
        obtain ⟨n, hn⟩ := ih j hj2 (lt_trans hj2 hi)
        exact ⟨n + 1, by simp [parentIter, hj1, hn]⟩

/-! ### Token-level lemmas: `NewTokenGroup` and the group-splitting loop -/

theorem takeWhile_append_of_all {α : Type} (p : α → Bool) (a b : List α)
    (h : ∀ x ∈ a, p x = true) :
    (a ++ b).takeWhile p = a ++ b.takeWhile p := by
  induction a with
  | nil => rfl
  | cons x a ih =>
      have hx : p x = true := h x (List.mem_cons_self x a)
      simp only [List.cons_append, List.takeWhile_cons, hx, if_true]
      rw [ih (fun y hy => h y (List.mem_cons_of_mem x hy))]

theorem drop_length_takeWhile {α : Type} (p : α → Bool) (l : List α) :
    l.drop (l.takeWhile p).length = l.dropWhile p := by
  induction l with
  | nil => rfl
  | cons x xs ih =>
      by_cases hp : p x = true
      · simp [List.takeWhile_cons, List.dropWhile_cons, hp, ih]
      · simp [List.takeWhile_cons, List.dropWhile_cons, hp]

theorem dropWhile_head_false {α : Type} (p : α → Bool) :
    ∀ (l : List α) (x : α) (xs : List α), l.dropWhile p = x :: xs → p x = false := by
  intro l
  induction l with
  | nil =>
      intro x xs h
      cases h
  | cons y ys ih =>
      intro x xs h
      by_cases hp : p y = true
      · rw [List.dropWhile_cons, if_pos hp] at h
        exact ih x xs h
      · rw [List.dropWhile_cons, if_neg hp] at h
        cases h
        simpa using hp

theorem drop_append_cons {α : Type} (a : List α) (e : α) (b : List α) :
    (a ++ e :: b).drop (a.length + 1) = b := by
  induction a with
  | nil => rfl
  | cons x a ih => simpa using ih

theorem indent_not_eol (t : Token) (h : t.Is .indent = true) : t.Is .eol = false := by
  have hk : t.kind = .indent := of_decide_eq_true h
  simp [Token.Is, hk]

theorem eol_not_indent (t : Token) (h : t.Is .eol = true) : t.Is .indent = false := by
  have hk : t.kind = .eol := of_decide_eq_true h
  simp [Token.Is, hk]

/-- Claim C2 (amended): for a line decomposed as leading Indent tokens, a body
free of EndOfLine tokens (not starting with an Indent), a terminating
EndOfLine and arbitrary following tokens, `NewTokenGroup` returns a consumed
count equal to the number of leading Indent tokens plus the number of body
tokens; the terminating EndOfLine itself is NOT counted (the caller advances
by consumed + 1). -/
theorem claim_C2_amended (ind body rest : List Token) (e : Token)
    (hInd : ∀ t ∈ ind, t.Is .indent = true)
    (hBody : ∀ t ∈ body, t.Is .eol = false)
    (hHead : ∀ b l2, body = b :: l2 → b.Is .indent = false)
    (hE : e.Is .eol = true) :
    (NewTokenGroup (ind ++ (body ++ e :: rest))).2 = ind.length + body.length := by
  have hlevel : ((ind ++ (body ++ e :: rest)).takeWhile (fun t => t.Is .indent)) = ind := by
    rw [takeWhile_append_of_all _ ind _ hInd]
    have : ((body ++ e :: rest).takeWhile (fun t => t.Is .indent)) = [] := by
      cases hb : body with
      | nil =>
          simp only [List.nil_append]
          rw [List.takeWhile_cons, if_neg (by simp [eol_not_indent e hE])]
      | cons b l2 =>
          simp only [List.cons_append]
          rw [List.takeWhile_cons, if_neg (by simp [hHead b l2 hb])]
    rw [this, List.append_nil]
  have hdrop : (ind ++ (body ++ e :: rest)).drop ind.length = body ++ e :: rest := by
    rw [show (ind.length : Nat) = ind.length + 0 from rfl]
    rw [List.drop_append]
    rfl
  have hbody : ((body ++ e :: rest).takeWhile (fun t => !(t.Is .eol))) = body := by
    rw [takeWhile_append_of_all _ body _ (fun t ht => by simp [hBody t ht])]
    rw [List.takeWhile_cons, if_neg (by simp [hE]), List.append_nil]
  simp only [NewTokenGroup, hlevel, hdrop, hbody]

theorem NewTokenGroup_consumed_eq (l : List Token) :
    (NewTokenGroup l).2 = (l.takeWhile (fun t => !(t.Is .eol))).length := by
  have hall : ∀ t ∈ l.takeWhile (fun t => t.Is .indent), (fun t => !(t.Is .eol)) t = true := by
    intro t ht
    have := List.mem_takeWhile_imp ht
    simp [indent_not_eol t (by simpa using this)]
  have hsplit : l.takeWhile (fun t => !(t.Is .eol))
      = l.takeWhile (fun t => t.Is .indent)
        ++ (l.dropWhile (fun t => t.Is .indent)).takeWhile (fun t => !(t.Is .eol)) := by
    conv_lhs => rw [← List.takeWhile_append_dropWhile
      (p := fun t => t.Is .indent) (l := l)]
    rw [takeWhile_append_of_all _ _ _ hall]
  simp only [NewTokenGroup, hsplit, List.length_append,
    drop_length_takeWhile (fun t => t.Is .indent) l]

theorem splitGroupsAux_spec : ∀ (fuel : Nat) (l : List Token), l.length ≤ fuel →
    ((∀ t, l.getLast? = some t → t.Is .eol = true) → (splitGroupsAux fuel l).isSome = true)
    ∧ (∀ t, l.getLast? = some t → t.Is .eol = false → splitGroupsAux fuel l = none) := by
  intro fuel
  induction fuel with
  | zero =>
      intro l hl
      have : l = [] := List.length_eq_zero.mp (Nat.le_zero.mp hl)
      subst this
      exact ⟨fun _ => rfl, fun t ht => by cases ht⟩
  | succ fuel ih =>
      intro l hl
      cases l with
      | nil => exact ⟨fun _ => rfl, fun t ht => by cases ht⟩
      | cons t0 ts =>
          have hcons := NewTokenGroup_consumed_eq (t0 :: ts)
          cases hd : (t0 :: ts).dropWhile (fun t => !(t.Is .eol)) with
          | nil =>
              have htw : (t0 :: ts).takeWhile (fun t => !(t.Is .eol)) = t0 :: ts := by
                conv_rhs => rw [← List.takeWhile_append_dropWhile
                  (p := fun t => !(t.Is .eol)) (l := t0 :: ts)]
                rw [hd, List.append_nil]
              have hcon : (NewTokenGroup (t0 :: ts)).2 = (t0 :: ts).length := by
                rw [hcons, htw]
              have hnone : splitGroupsAux (fuel + 1) (t0 :: ts) = none := by
                rw [splitGroupsAux, if_pos (by omega)]
              constructor
              · intro hlast
                exfalso
                have hmem : ∀ x ∈ (t0 :: ts), (fun t => !(t.Is .eol)) x = true := by
                  intro x hx
                  rw [← htw] at hx
                  simpa using List.mem_takeWhile_imp hx
                obtain ⟨tl, htl⟩ : ∃ tl, (t0 :: ts).getLast? = some tl := by
                  cases hgl : (t0 :: ts).getLast? with
                  | none => simp [List.getLast?_eq_getLast] at hgl
                  | some x => exact ⟨x, rfl⟩
                have h1 := hlast tl htl
                have h2 : tl ∈ (t0 :: ts) := by
                  obtain ⟨hne, heq⟩ := List.mem_getLast?_eq_getLast (show tl ∈ (t0 :: ts).getLast? from htl)
                  rw [heq]
                  exact List.getLast_mem hne
                have := hmem tl h2
                simp [h1] at this
              · intro t ht hne
                exact hnone
          | cons e b =>
              have heol : e.Is .eol = true := by
                have := dropWhile_head_false (fun t => !(t.Is .eol)) (t0 :: ts) e b hd
                simpa using this
              set A := (t0 :: ts).takeWhile (fun t => !(t.Is .eol)) with hA
              have hdec : A ++ e :: b = t0 :: ts := by
                conv_rhs => rw [← List.takeWhile_append_dropWhile
                  (p := fun t => !(t.Is .eol)) (l := t0 :: ts)]
                rw [hd]
              have hlen2 := congrArg List.length hdec
              simp only [List.length_append, List.length_cons] at hlen2
              have hle : ¬ ((NewTokenGroup (t0 :: ts)).2 + 1 > (t0 :: ts).length) := by
                simp only [List.length_cons]
                omega
              have hdropped : (t0 :: ts).drop ((NewTokenGroup (t0 :: ts)).2 + 1) = b := by
                rw [hcons, ← hdec, drop_append_cons]
              have hunf : splitGroupsAux (fuel + 1) (t0 :: ts)
                  = (splitGroupsAux fuel b).map
                      (fun gs => (NewTokenGroup (t0 :: ts)).1 :: gs) := by
                rw [splitGroupsAux, if_neg hle, hdropped]
              have hblen : b.length ≤ fuel := by
                have hl' : ts.length + 1 ≤ fuel + 1 := by simpa using hl
                omega
              obtain ⟨ihs, ihn⟩ := ih b hblen
              constructor
              · intro hlast
                rw [hunf]
                cases hb : b with
                | nil =>
                    cases fuel <;> rfl
                | cons b0 bs =>
                    have hlb : ∀ t, b.getLast? = some t → t.Is .eol = true := by
                      intro t htl
                      apply hlast
                      rw [← hdec, hb]
                      rw [show (A ++ e :: b0 :: bs) = ((A ++ [e]) ++ b0 :: bs) from by simp]
                      rw [List.getLast?_append_cons]
                      rw [← hb]
                      exact htl
                    have hsome := ihs hlb
                    rw [hb] at hsome
                    cases hsg : splitGroupsAux fuel (b0 :: bs) with
                    | none =>
                        rw [hsg] at hsome
                        simp at hsome
                    | some gs => rfl
              · intro t htl hfalse
                rw [hunf]
                cases hb : b with
                | nil =>
                    exfalso
                    have hgl : (t0 :: ts).getLast? = some e := by
                      rw [← hdec, hb, List.getLast?_append_cons]
                      rfl
                    rw [hgl] at htl
                    cases htl
                    rw [heol] at hfalse
                    cases hfalse
                | cons b0 bs =>
                    have htlb : b.getLast? = some t := by
                      rw [← hdec, hb] at htl
                      rw [show (A ++ e :: b0 :: bs) = ((A ++ [e]) ++ b0 :: bs) from by simp] at htl
                      rw [List.getLast?_append_cons] at htl
                      rw [hb]
                      exact htl
                    rw [← hb, ihn t htlb hfalse]
                    rfl

/-! ### Parse-level bridges -/

theorem getLast_append_single {α : Type} (init : List α) (t : α) :
    (init ++ [t]).getLast? = some t := by
  rw [List.getLast?_append_cons]
  rfl

theorem splitGroups_isSome_of_eol (init : List Token) (t : Token)
    (h : t.Is .eol = true) : (splitGroups (init ++ [t])).isSome = true := by
  apply (splitGroupsAux_spec (init ++ [t]).length (init ++ [t]) (le_refl _)).1
  intro tl htl
  rw [getLast_append_single] at htl
  cases htl
  exact h

theorem splitGroups_none_of_not_eol (init : List Token) (t : Token)
    (h : t.Is .eol = false) : splitGroups (init ++ [t]) = none :=
  (splitGroupsAux_spec (init ++ [t]).length (init ++ [t]) (le_refl _)).2 t
    (getLast_append_single init t) h

theorem Parse_append_single_isSome (init : List Token) (t : Token)
    (h : t.Is .eol = true) : (Parse (init ++ [t])).isSome = true := by
  rw [Parse, if_neg (by simp)]
  have := splitGroups_isSome_of_eol init t h
  cases hs : splitGroups (init ++ [t]) with
  | none =>
      rw [hs] at this
      simp at this
  | some gs => rfl

theorem Parse_append_single_none (init : List Token) (t : Token)
    (h : t.Is .eol = false) : Parse (init ++ [t]) = none := by
  rw [Parse, if_neg (by simp), splitGroups_none_of_not_eol init t h]

/-- The empty-line path of `processGroup` in isolation: `curr` is reset to the
root, exactly one Break node is appended as a child of the root, and the rest
of the line's processing is skipped (`lastLevel` is left unchanged). -/
theorem processGroup_empty_spec (p : Parser) (ll lvl pos : Nat)
    (hroot : p.root < p.arena.length) :
    (processGroup p ll false ⟨[], lvl, pos⟩).2 = ll
    ∧ (processGroup p ll false ⟨[], lvl, pos⟩).1.curr = p.root
    ∧ (processGroup p ll false ⟨[], lvl, pos⟩).1.arena.length = p.arena.length + 1
    ∧ getN (processGroup p ll false ⟨[], lvl, pos⟩).1.arena p.arena.length
        = ⟨.brk, "", some p.root, []⟩
    ∧ (getN (processGroup p ll false ⟨[], lvl, pos⟩).1.arena p.root).childs
        = (getN p.arena p.root).childs ++ [p.arena.length] := by
  have hq : processGroup p ll false ⟨[], lvl, pos⟩
      = ((addNode (closeAllGroups p) .brk "").1, ll) := rfl
  refine ⟨by rw [hq], ?_, ?_, ?_, ?_⟩
  · rw [hq]
    exact addNode_curr (closeAllGroups p) .brk ""
  · rw [hq]
    exact addNode_length_of_not_text (closeAllGroups p) .brk "" rfl
  · rw [hq]
    show getN (addNode (closeAllGroups p) .brk "").1.arena p.arena.length
        = ⟨.brk, "", some p.root, []⟩
    rw [show (p.arena.length : Nat) = (addNode (closeAllGroups p) .brk "").2 from
        (addNode_idx_of_not_text (closeAllGroups p) .brk "" rfl).symm,
      addNode_getN_main]
    rfl
  · rw [hq]
    exact addNode_childs_curr_of_not_text (closeAllGroups p) .brk "" rfl hroot

/-! ### Exact node tracking and line-level machinery for the indentation
round trip (claim C3) -/

theorem openGroup_getN_ne (p : Parser) (j : Nat) (hj : j < p.arena.length)
    (hne : j ≠ p.curr) : getN (openGroup p).arena j = getN p.arena j := by
  simp only [openGroup, addNodeInto]
  exact addNode_getN_ne p .group "" j hj hne

theorem openGroup_getN_curr (p : Parser) (h : p.curr < p.arena.length) :
    getN (openGroup p).arena p.curr
      = { getN p.arena p.curr with
            childs := (getN p.arena p.curr).childs ++ [p.arena.length] } := by
  simp only [openGroup, addNodeInto]
  rw [addNode_of_not_text p .group "" rfl,
    attach_getN_lt { p with onAdd := false } .group "" p.curr h, if_pos rfl]

/-- Exact-node complement to `openGroups_spec`: every node other than the
starting `curr` is untouched, `curr` itself only gains the index of the first
opened Group as a new last child, and the opened Groups carry an empty
text. -/
theorem openGroups_exact (k : Nat) (p : Parser) (h : p.curr < p.arena.length) :
    (∀ j, j < p.arena.length → j ≠ p.curr →
        getN (openGroups k p).arena j = getN p.arena j)
    ∧ (0 < k → getN (openGroups k p).arena p.curr
        = { getN p.arena p.curr with
              childs := (getN p.arena p.curr).childs ++ [p.arena.length] })
    ∧ (∀ i, p.arena.length ≤ i → i < p.arena.length + k →
        (getN (openGroups k p).arena i).text = "") := by
  induction k generalizing p with
  | zero =>
      exact ⟨fun j hj hne => rfl, fun hk => absurd hk (by omega),
        fun i h1 h2 => by omega⟩
  | succ k ih =>
      have hcurr' : (openGroup p).curr < (openGroup p).arena.length := by
        rw [openGroup_curr, openGroup_length]
        omega
      obtain ⟨ih1, ih2, ih3⟩ := ih (openGroup p) hcurr'
      refine ⟨?_, ?_, ?_⟩
      · intro j hj hne
        rw [openGroups]
        have hj' : j < (openGroup p).arena.length := by rw [openGroup_length]; omega
        have hne' : j ≠ (openGroup p).curr := by rw [openGroup_curr]; omega
        rw [ih1 j hj' hne', openGroup_getN_ne p j hj hne]
      · intro _
        rw [openGroups]
        have hj' : p.curr < (openGroup p).arena.length := by
          rw [openGroup_length]; omega
        have hne' : p.curr ≠ (openGroup p).curr := by rw [openGroup_curr]; omega
        rw [ih1 p.curr hj' hne', openGroup_getN_curr p h]
      · intro i hi1 hi2
        rw [openGroups]
        rcases Nat.eq_or_lt_of_le hi1 with hi | hi
        · cases k with
          | zero =>
              simp only [openGroups]
              rw [← hi, openGroup_getN_new]
          | succ k =>
              have h2 := ih2 (Nat.succ_pos k)
              rw [openGroup_curr] at h2
              rw [← hi, h2, openGroup_getN_new]
        · have hge : (openGroup p).arena.length ≤ i := by
            rw [openGroup_length]; omega
          have hlt : i < (openGroup p).arena.length + k := by
            rw [openGroup_length]; omega
          exact ih3 i hge hlt

theorem addNodeInto_root (p : Parser) (k : NodeKind) (t : String) :
    (addNodeInto p k t).root = p.root := addNode_root p k t

theorem addNodeInto_onAdd (p : Parser) (k : NodeKind) (t : String) :
    (addNodeInto p k t).onAdd = false := addNode_onAdd p k t

theorem addNodeInto_length_nt (p : Parser) (k : NodeKind) (t : String)
    (h : (NewNodeWithText k t).IsTextNode = false) :
    (addNodeInto p k t).arena.length = p.arena.length + 1 :=
  addNode_length_of_not_text p k t h

theorem addNodeInto_curr_nt (p : Parser) (k : NodeKind) (t : String)
    (h : (NewNodeWithText k t).IsTextNode = false) :
    (addNodeInto p k t).curr = p.arena.length :=
  addNode_idx_of_not_text p k t h

theorem addNodeInto_getN_curr (p : Parser) (k : NodeKind) (t : String) :
    getN (addNodeInto p k t).arena (addNodeInto p k t).curr
      = ⟨k, t, some p.curr, []⟩ :=
  addNode_getN_main p k t

theorem addNodeInto_getN_ne (p : Parser) (k : NodeKind) (t : String) (j : Nat)
    (hj : j < p.arena.length) (hne : j ≠ p.curr) :
    getN (addNodeInto p k t).arena j = getN p.arena j :=
  addNode_getN_ne p k t j hj hne

theorem addNodeInto_getN_kind (p : Parser) (k : NodeKind) (t : String) (j : Nat)
    (hj : j < p.arena.length) :
    (getN (addNodeInto p k t).arena j).kind = (getN p.arena j).kind :=
  addNode_getN_kind p k t j hj

theorem addNodeInto_getN_parent (p : Parser) (k : NodeKind) (t : String) (j : Nat)
    (hj : j < p.arena.length) :
    (getN (addNodeInto p k t).arena j).parent = (getN p.arena j).parent :=
  addNode_getN_parent p k t j hj

theorem addNodeInto_getN_text (p : Parser) (k : NodeKind) (t : String) (j : Nat)
    (hj : j < p.arena.length) :
    (getN (addNodeInto p k t).arena j).text = (getN p.arena j).text :=
  addNode_getN_text p k t j hj

theorem Parser_eq_of_fields (p q : Parser) (h1 : p.arena = q.arena)
    (h2 : p.root = q.root) (h3 : p.curr = q.curr) (h4 : p.onAdd = q.onAdd) :
    p = q := by
  cases p
  cases q
  simp_all

theorem Parser_set_onAdd_id (p : Parser) (h : p.onAdd = false) :
    { p with onAdd := false } = p := by
  cases p
  simp_all

theorem isTextNode_false_of_group (n : Node) (h : n.kind = .group) :
    n.IsTextNode = false := by
  simp [Node.IsTextNode, h]

theorem lastNode_of_getLast (p : Parser) (c : Nat)
    (h : (getN p.arena p.curr).childs.getLast? = some c) : lastNode p = c := by
  simp [lastNode, h]

theorem lastNode_of_nil (p : Parser)
    (h : (getN p.arena p.curr).childs = []) : lastNode p = p.curr := by
  simp [lastNode, h]

theorem blockItemStep_skip (p : Parser) (g : List Token)
    (h : Tokens.Are g [.blockItem] = false) : blockItemStep p g = (p, g) := by
  simp [blockItemStep, h]

theorem listItemStep_skip (p : Parser) (g : List Token)
    (h : Tokens.Are g [.listItem] = false) : listItemStep p g = (p, g) := by
  simp [listItemStep, h]

/-- `listItemStep` on a list-item line whose `curr` is a Group: a fresh List
node is opened under `curr` and a fresh ListItem under it. -/
theorem listItemStep_fresh (p : Parser) (item : Token) (rest : List Token)
    (hIs : Tokens.Are (item :: rest) [.listItem] = true)
    (hkind : (getN p.arena p.curr).kind = .group) :
    listItemStep p (item :: rest)
      = (addNodeInto (addNodeInto p .list "") .listItem item.text, rest) := by
  simp only [listItemStep, hIs, if_true]
  rw [hkind]

theorem armSpaceHook_id (p : Parser)
    (h : (getN p.arena (lastNode p)).IsTextNode = false) : armSpaceHook p = p := by
  simp [armSpaceHook, h]

theorem processGroup_cons (p : Parser) (ll : Nat) (first : Bool)
    (x : Token) (xs : List Token) (lvl pos : Nat) :
    processGroup p ll first ⟨x :: xs, lvl, pos⟩
      = ({ drainTokens
            (armSpaceHook
              (listItemStep (blockItemStep (levelStep p ll lvl) (x :: xs)).1
                (blockItemStep (levelStep p ll lvl) (x :: xs)).2).1)
            (listItemStep (blockItemStep (levelStep p ll lvl) (x :: xs)).1
              (blockItemStep (levelStep p ll lvl) (x :: xs)).2).2
          with onAdd := false }, lvl) := rfl

theorem processGroupsAux_cons (p : Parser) (ll : Nat) (first : Bool)
    (g : TokenGroup) (gs : List TokenGroup) :
    processGroupsAux p ll first (g :: gs)
      = processGroupsAux (processGroup p ll first g).1
          (processGroup p ll first g).2 false gs := rfl

theorem drainTokens_text_cons (p : Parser) (s : String) (rest : List Token) :
    drainTokens p (NewTokenWithText .text s :: rest)
      = drainTokens (addNode p .text s).1 rest := rfl

theorem splitGroupsAux_nil (fuel : Nat) : splitGroupsAux fuel [] = some [] := by
  cases fuel <;> rfl

theorem splitGroupsAux_cons (fuel : Nat) (l : List Token) (hl : l ≠ []) :
    splitGroupsAux (fuel + 1) l
      = (if (NewTokenGroup l).2 + 1 > l.length then none
         else (splitGroupsAux fuel (l.drop ((NewTokenGroup l).2 + 1))).map
           (fun gs => (NewTokenGroup l).1 :: gs)) := by
  cases l with
  | nil => exact absurd rfl hl
  | cons t ts => rfl

/-- Full characterization of `NewTokenGroup` on a decomposed line: leading
Indents, an EndOfLine-free body not starting with an Indent, the terminating
EndOfLine and the rest of the input. -/
theorem NewTokenGroup_decomp (ind body rest : List Token) (e : Token)
    (hInd : ∀ t ∈ ind, t.Is .indent = true)
    (hBody : ∀ t ∈ body, t.Is .eol = false)
    (hHead : ∀ b l2, body = b :: l2 → b.Is .indent = false)
    (hE : e.Is .eol = true) :
    NewTokenGroup (ind ++ (body ++ e :: rest))
      = (⟨body, ind.length, 0⟩, ind.length + body.length) := by
  have hlevel : ((ind ++ (body ++ e :: rest)).takeWhile (fun t => t.Is .indent)) = ind := by
    rw [takeWhile_append_of_all _ ind _ hInd]
    have : ((body ++ e :: rest).takeWhile (fun t => t.Is .indent)) = [] := by
      cases hb : body with
      | nil =>
          simp only [List.nil_append]
          rw [List.takeWhile_cons, if_neg (by simp [eol_not_indent e hE])]
      | cons b l2 =>
          simp only [List.cons_append]
          rw [List.takeWhile_cons, if_neg (by simp [hHead b l2 hb])]
    rw [this, List.append_nil]
  have hdrop : (ind ++ (body ++ e :: rest)).drop ind.length = body ++ e :: rest := by
    rw [show (ind.length : Nat) = ind.length + 0 from rfl]
    rw [List.drop_append]
    rfl
  have hbody : ((body ++ e :: rest).takeWhile (fun t => !(t.Is .eol))) = body := by
    rw [takeWhile_append_of_all _ body _ (fun t ht => by simp [hBody t ht])]
    rw [List.takeWhile_cons, if_neg (by simp [hE]), List.append_nil]
  simp only [NewTokenGroup, hlevel, hdrop, hbody]

/-- The line sequence of the indentation round trip: a Text line at level 0,
a List-item line `k` indentation levels deeper (so that after its content the
current node is a ListItem, two wrapper nodes below the deepest Group), and a
Text line back at level 0.  Every line is EndOfLine-terminated. -/
def roundTripTokens (k : Nat) : List Token :=
  NewTokenWithText .text "a" :: NewToken .eol ::
    (List.replicate k (NewToken .indent)
      ++ [NewTokenWithText .listItem "item", NewToken .eol,
          NewTokenWithText .text "c", NewToken .eol])

theorem roundTripTokens_length (k : Nat) : (roundTripTokens k).length = k + 6 := by
  simp only [roundTripTokens, List.length_cons, List.length_append,
    List.length_replicate, List.length_nil]

/-- Splitting the round-trip line sequence yields exactly three line groups:
the Text line at level 0, the List-item line at level `k`, and the closing
Text line at level 0. -/
theorem splitGroups_roundTrip (k : Nat) :
    splitGroups (roundTripTokens k)
      = some [⟨[NewTokenWithText .text "a"], 0, 0⟩,
              ⟨[NewTokenWithText .listItem "item"], k, 0⟩,
              ⟨[NewTokenWithText .text "c"], 0, 0⟩] := by
  have hXlen : (List.replicate k (NewToken .indent)
      ++ [NewTokenWithText .listItem "item", NewToken .eol,
          NewTokenWithText .text "c", NewToken .eol]).length = k + 4 := by
    simp
  have hXne : (List.replicate k (NewToken .indent)
      ++ [NewTokenWithText .listItem "item", NewToken .eol,
          NewTokenWithText .text "c", NewToken .eol]) ≠ [] := by
    intro hcon
    have hc2 := congrArg List.length hcon
    rw [hXlen] at hc2
    simp at hc2
  have h1 : NewTokenGroup (roundTripTokens k)
      = (⟨[NewTokenWithText .text "a"], 0, 0⟩, 1) :=
    NewTokenGroup_decomp [] [NewTokenWithText .text "a"]
      (List.replicate k (NewToken .indent)
        ++ [NewTokenWithText .listItem "item", NewToken .eol,
            NewTokenWithText .text "c", NewToken .eol]) (NewToken .eol)
      (by intro t ht; simp at ht)
      (by intro t ht; rw [List.mem_singleton] at ht; subst ht; decide)
      (by intro b l2 hb; cases hb; decide)
      (by decide)
  have h2 : NewTokenGroup (List.replicate k (NewToken .indent)
      ++ [NewTokenWithText .listItem "item", NewToken .eol,
          NewTokenWithText .text "c", NewToken .eol])
      = (⟨[NewTokenWithText .listItem "item"], k, 0⟩, k + 1) := by
    have hd := NewTokenGroup_decomp (List.replicate k (NewToken .indent))
        [NewTokenWithText .listItem "item"]
        [NewTokenWithText .text "c", NewToken .eol] (NewToken .eol)
        (by intro t ht; rw [List.eq_of_mem_replicate ht]; decide)
        (by intro t ht; rw [List.mem_singleton] at ht; subst ht; decide)
        (by intro b l2 hb; cases hb; decide)
        (by decide)
    rw [List.length_replicate] at hd
    exact hd
  have h3 : NewTokenGroup [NewTokenWithText .text "c", NewToken .eol]
      = (⟨[NewTokenWithText .text "c"], 0, 0⟩, 1) := by decide
  have hdrop1 : (roundTripTokens k).drop (1 + 1)
      = List.replicate k (NewToken .indent)
        ++ [NewTokenWithText .listItem "item", NewToken .eol,
            NewTokenWithText .text "c", NewToken .eol] := rfl
  have hdrop2 : (List.replicate k (NewToken .indent)
      ++ [NewTokenWithText .listItem "item", NewToken .eol,
          NewTokenWithText .text "c", NewToken .eol]).drop (k + 1 + 1)
      = [NewTokenWithText .text "c", NewToken .eol] := by
    have hre : (List.replicate k (NewToken .indent)
        ++ [NewTokenWithText .listItem "item", NewToken .eol,
            NewTokenWithText .text "c", NewToken .eol])
        = (List.replicate k (NewToken .indent) ++ [NewTokenWithText .listItem "item"])
          ++ NewToken .eol :: [NewTokenWithText .text "c", NewToken .eol] := by
      simp
    rw [hre, show (k + 1 + 1 : Nat)
        = (List.replicate k (NewToken .indent)
            ++ [NewTokenWithText .listItem "item"]).length + 1 from by simp]
    exact drop_append_cons _ _ _
  rw [splitGroups, roundTripTokens_length]
  rw [show (k + 6 : Nat) = (k + 5) + 1 from rfl]
  rw [splitGroupsAux_cons (k + 5) _ (by simp [roundTripTokens])]
  rw [h1, roundTripTokens_length]
  dsimp only
  rw [if_neg (by omega), hdrop1]
  rw [show (k + 5 : Nat) = (k + 4) + 1 from rfl]
  rw [splitGroupsAux_cons (k + 4) _ hXne]
  rw [h2, hXlen]
  dsimp only
  rw [if_neg (by omega), hdrop2]
  rw [show (k + 4 : Nat) = (k + 3) + 1 from rfl]
  rw [splitGroupsAux_cons (k + 3) _ (by simp)]
  rw [h3]
  dsimp only
  rw [if_neg (by simp)]
  rw [show ([NewTokenWithText .text "c", NewToken .eol] : List Token).drop (1 + 1)
      = [] from rfl]
  rw [splitGroupsAux_nil]
  rfl

/-- The parser state after the first line of the round-trip sequence
(Text "a" attached under the root). -/
def lineAState : Parser :=
  ⟨[⟨.group, "", none, [1]⟩, ⟨.text, "a", some 0, []⟩], 0, 0, false⟩

/-- Symbolic execution of `Parse` on the round-trip line sequence for every
positive `k`: the level-`k` List-item line opens exactly `k` chained Groups
and then descends through List and ListItem wrappers; the closing line's
`closeGroups` climbs out of the wrappers, ascends the chain, and its Text
lands again under the root — the node current before the increase. -/
theorem roundTrip_parse_facts (k : Nat) (hk : 0 < k) :
    ∃ q, Parse (roundTripTokens k) = some q
      ∧ q.arena.length = k + 5
      ∧ getN q.arena 0 = ⟨.group, "", none, [1, 2, k + 4]⟩
      ∧ getN q.arena 1 = ⟨.text, "a", some 0, []⟩
      ∧ (∀ i, 2 ≤ i → i < k + 2 →
          (getN q.arena i).kind = .group
          ∧ (getN q.arena i).parent = some (if i = 2 then 0 else i - 1)
          ∧ (getN q.arena i).text = "")
      ∧ (getN q.arena (k + 2)).kind = .list
      ∧ (getN q.arena (k + 3)).kind = .listItem
      ∧ getN q.arena (k + 4) = ⟨.text, "c", some 0, []⟩ := by
  have hstep1 : processGroup parserInit 0 true ⟨[NewTokenWithText .text "a"], 0, 0⟩
      = (lineAState, 0) := by decide
  have hA : lineAState.curr < lineAState.arena.length := by decide
  have hlenA : lineAState.arena.length = 2 := rfl
  have hcurrA : lineAState.curr = 0 := rfl
  obtain ⟨g1, g2, g3, g4, g5, g6⟩ := openGroups_spec k lineAState hA
  obtain ⟨x1, x2, x3⟩ := openGroups_exact k lineAState hA
  set q1 : Parser := openGroups k lineAState with hq1def
  have hq1len : q1.arena.length = k + 2 := by
    rw [g1, hlenA]
    omega
  have hq1curr : q1.curr = k + 1 := by
    rw [g3, if_neg (by omega : ¬ k = 0), hlenA]
    omega
  have hq1root : q1.root = 0 := by
    rw [g2]
    rfl
  have hF0 : getN q1.arena 0 = ⟨.group, "", none, [1, 2]⟩ := by
    have h := x2 hk
    rw [hcurrA] at h
    rw [h]
    rfl
  have hF1 : getN q1.arena 1 = ⟨.text, "a", some 0, []⟩ := by
    rw [x1 1 (by omega) (by rw [hcurrA]; omega)]
    rfl
  have hFg : ∀ i, 2 ≤ i → i < k + 2 →
      (getN q1.arena i).kind = .group
      ∧ (getN q1.arena i).parent = some (if i = 2 then 0 else i - 1)
      ∧ (getN q1.arena i).text = "" := by
    intro i hi1 hi2
    have h6 := g6 i (by omega) (by omega)
    have h3 := x3 i (by omega) (by omega)
    refine ⟨h6.1, ?_, h3⟩
    rw [h6.2.1, hlenA, hcurrA]
  set q2 : Parser := addNodeInto q1 .list "" with hq2def
  set q3 : Parser := addNodeInto q2 .listItem "item" with hq3def
  have hq2len : q2.arena.length = k + 3 := by
    rw [hq2def, addNodeInto_length_nt q1 .list "" rfl, hq1len]
  have hq2curr : q2.curr = k + 2 := by
    rw [hq2def, addNodeInto_curr_nt q1 .list "" rfl, hq1len]
  have hq2main : getN q2.arena (k + 2) = ⟨.list, "", some (k + 1), []⟩ := by
    have h := addNodeInto_getN_curr q1 .list ""
    rw [← hq2def] at h
    rw [hq2curr, hq1curr] at h
    exact h
  have hq3len : q3.arena.length = k + 4 := by
    rw [hq3def, addNodeInto_length_nt q2 .listItem "item" rfl, hq2len]
  have hq3curr : q3.curr = k + 3 := by
    rw [hq3def, addNodeInto_curr_nt q2 .listItem "item" rfl, hq2len]
  have hq3main : getN q3.arena (k + 3) = ⟨.listItem, "item", some (k + 2), []⟩ := by
    have h := addNodeInto_getN_curr q2 .listItem "item"
    rw [← hq3def] at h
    rw [hq3curr, hq2curr] at h
    exact h
  have hq3root : q3.root = 0 := by
    rw [hq3def, addNodeInto_root, hq2def, addNodeInto_root, hq1root]
  have hq3onAdd : q3.onAdd = false := by
    rw [hq3def, addNodeInto_onAdd]
  have hq3ne : ∀ j, j < k + 2 → j ≠ k + 1 → getN q3.arena j = getN q1.arena j := by
    intro j hj hne
    rw [hq3def, addNodeInto_getN_ne q2 .listItem "item" j (by omega) (by omega),
      hq2def, addNodeInto_getN_ne q1 .list "" j (by omega) (by omega)]
  have hq3kind : ∀ j, j < k + 2 → (getN q3.arena j).kind = (getN q1.arena j).kind := by
    intro j hj
    rw [hq3def, addNodeInto_getN_kind q2 .listItem "item" j (by omega),
      hq2def, addNodeInto_getN_kind q1 .list "" j (by omega)]
  have hq3par : ∀ j, j < k + 2 → (getN q3.arena j).parent = (getN q1.arena j).parent := by
    intro j hj
    rw [hq3def, addNodeInto_getN_parent q2 .listItem "item" j (by omega),
      hq2def, addNodeInto_getN_parent q1 .list "" j (by omega)]
  have hq3text : ∀ j, j < k + 2 → (getN q3.arena j).text = (getN q1.arena j).text := by
    intro j hj
    rw [hq3def, addNodeInto_getN_text q2 .listItem "item" j (by omega),
      hq2def, addNodeInto_getN_text q1 .list "" j (by omega)]
  have hq3listkind : (getN q3.arena (k + 2)).kind = .list := by
    rw [hq3def, addNodeInto_getN_kind q2 .listItem "item" (k + 2) (by omega), hq2main]
  have hq3listpar : (getN q3.arena (k + 2)).parent = some (k + 1) := by
    rw [hq3def, addNodeInto_getN_parent q2 .listItem "item" (k + 2) (by omega), hq2main]
  have hG0 : getN q3.arena 0 = ⟨.group, "", none, [1, 2]⟩ := by
    rw [hq3ne 0 (by omega) (by omega), hF0]
  have hG1 : getN q3.arena 1 = ⟨.text, "a", some 0, []⟩ := by
    rw [hq3ne 1 (by omega) (by omega), hF1]
  have hGg : ∀ i, 2 ≤ i → i < k + 2 →
      (getN q3.arena i).kind = .group
      ∧ (getN q3.arena i).parent = some (if i = 2 then 0 else i - 1)
      ∧ (getN q3.arena i).text = "" := by
    intro i hi1 hi2
    obtain ⟨f1, f2, f3⟩ := hFg i hi1 hi2
    refine ⟨?_, ?_, ?_⟩
    · rw [hq3kind i hi2, f1]
    · rw [hq3par i hi2, f2]
    · rw [hq3text i hi2, f3]
  have hchain : wrapChain q3.arena q3.curr (k + 1) := by
    rw [hq3curr]
    refine wrapChain.step (k + 3) (k + 2) (k + 1) ?_ ?_ (by omega)
      (wrapChain.step (k + 2) (k + 1) (k + 1) ?_ ?_ (by omega) (wrapChain.refl (k + 1)))
    · have hkindLI : (getN q3.arena (k + 3)).kind = .listItem := by rw [hq3main]
      rw [hkindLI]
      decide
    · rw [hq3main]
    · rw [hq3listkind]
      decide
    · rw [hq3listpar]
  have hnodes : ∀ i, i < 2 + k → 2 ≤ i →
      (getN q3.arena i).kind = .group
      ∧ (getN q3.arena i).parent = some (if i = 2 then 0 else i - 1) := by
    intro i h1 h2
    exact ⟨(hGg i h2 (by omega)).1, (hGg i h2 (by omega)).2.1⟩
  have hclose : (closeGroups k q3).curr = 0 := by
    apply closeGroups_chain_wrap k q3 2 0 hnodes
    · intro h0
      omega
    · intro _
      constructor
      · rw [show (2 + k - 1 : Nat) = k + 1 from by omega]
        exact hchain
      · omega
  have hq4 : closeGroups k q3 = { q3 with curr := 0 } :=
    Parser_eq_of_fields _ _ (closeGroups_arena k q3) (closeGroups_root k q3)
      hclose (closeGroups_onAdd k q3)
  set q4 : Parser := { q3 with curr := 0 } with hq4def
  have hq4len : q4.arena.length = k + 4 := hq3len
  have hq4curr : q4.curr = 0 := rfl
  have hq1kind : (getN q1.arena q1.curr).kind = .group := by
    rw [hq1curr]
    exact (hFg (k + 1) (by omega) (by omega)).1
  have hstep2 : processGroup lineAState 0 false ⟨[NewTokenWithText .listItem "item"], k, 0⟩
      = (q3, k) := by
    have e1 : levelStep lineAState 0 k = q1 := by
      simp only [levelStep]
      rw [if_pos hk, Nat.sub_zero, ← hq1def]
    have e2 : blockItemStep q1 [NewTokenWithText .listItem "item"]
        = (q1, [NewTokenWithText .listItem "item"]) :=
      blockItemStep_skip _ _ (by decide)
    have e3 : listItemStep q1 [NewTokenWithText .listItem "item"] = (q3, []) := by
      rw [listItemStep_fresh q1 (NewTokenWithText .listItem "item") [] (by decide) hq1kind]
      rw [show (NewTokenWithText .listItem "item").text = "item" from rfl]
    have hq3childs : (getN q3.arena q3.curr).childs = [] := by
      have h := addNodeInto_getN_curr q2 .listItem "item"
      rw [← hq3def] at h
      rw [h]
    have e4 : armSpaceHook q3 = q3 := by
      apply armSpaceHook_id
      rw [lastNode_of_nil q3 hq3childs]
      have h := addNodeInto_getN_curr q2 .listItem "item"
      rw [← hq3def] at h
      rw [h]
      rfl
    rw [processGroup_cons, e1, e2]
    dsimp only
    rw [e3]
    dsimp only
    rw [e4]
    rw [show drainTokens q3 [] = q3 from rfl]
    rw [Parser_set_onAdd_id q3 hq3onAdd]
  have hstep3 : processGroup q3 k false ⟨[NewTokenWithText .text "c"], 0, 0⟩
      = ((addNode q4 .text "c").1, 0) := by
    have e1 : levelStep q3 k 0 = q4 := by
      simp only [levelStep]
      rw [if_neg (by omega), Nat.sub_zero, hq4]
    have e2 : blockItemStep q4 [NewTokenWithText .text "c"]
        = (q4, [NewTokenWithText .text "c"]) :=
      blockItemStep_skip _ _ (by decide)
    have e3 : listItemStep q4 [NewTokenWithText .text "c"]
        = (q4, [NewTokenWithText .text "c"]) :=
      listItemStep_skip _ _ (by decide)
    have e4 : armSpaceHook q4 = q4 := by
      apply armSpaceHook_id
      have hch : (getN q4.arena q4.curr).childs = [1, 2] := by
        show (getN q3.arena 0).childs = [1, 2]
        rw [hG0]
      rw [lastNode_of_getLast q4 2 (by rw [hch]; rfl)]
      show (getN q3.arena 2).IsTextNode = false
      exact isTextNode_false_of_group _ (hGg 2 (by omega) (by omega)).1
    rw [processGroup_cons, e1, e2]
    dsimp only
    rw [e3]
    dsimp only
    rw [e4, drainTokens_text_cons]
    rw [show drainTokens (addNode q4 .text "c").1 [] = (addNode q4 .text "c").1 from rfl]
    rw [Parser_set_onAdd_id _ (addNode_onAdd _ _ _)]
  have hadd : addNode q4 .text "c" = attach q4 .text "c" :=
    addNode_of_not_hooked q4 .text "c" (by show q3.onAdd = false; exact hq3onAdd)
  have hq40 : getN q4.arena 0 = ⟨.group, "", none, [1, 2]⟩ := hG0
  refine ⟨(addNode q4 .text "c").1, ?_, ?_, ?_, ?_, ?_, ?_, ?_, ?_⟩
  · rw [Parse, if_neg (by simp [roundTripTokens]), splitGroups_roundTrip k]
    dsimp only
    rw [processGroupsAux_cons, hstep1]
    dsimp only
    rw [processGroupsAux_cons, hstep2]
    dsimp only
    rw [processGroupsAux_cons, hstep3]
    dsimp only
    rfl
  · rw [hadd, attach_length]
    show q3.arena.length + 1 = k + 5
    omega
  · rw [hadd]
    have h := attach_getN_lt q4 .text "c" 0 (by omega)
    rw [if_pos (show (0 : Nat) = q4.curr from rfl), hq40, hq4len] at h
    rw [h]
    rfl
  · rw [hadd, attach_getN_ne q4 .text "c" 1 (by omega) (by omega)]
    exact hG1
  · intro i hi1 hi2
    have hpres : getN (addNode q4 .text "c").1.arena i = getN q4.arena i := by
      rw [hadd]
      exact attach_getN_ne q4 .text "c" i (by omega) (by omega)
    rw [hpres]
    exact hGg i hi1 hi2
  · rw [hadd, attach_getN_ne q4 .text "c" (k + 2) (by omega) (by omega)]
    exact hq3listkind
  · rw [hadd, attach_getN_ne q4 .text "c" (k + 3) (by omega) (by omega)]
    have hm : getN q4.arena (k + 3) = ⟨.listItem, "item", some (k + 2), []⟩ := hq3main
    rw [hm]
  · rw [hadd]
    have h := attach_getN_new q4 .text "c"
    rw [hq4len, hq4curr] at h
    exact h

/-! ### Claim theorems -/

/-- Claim C1 (counterexample): on the single-line sequence
[Bold-delimiter, Text "a", Bold-delimiter, Text "b", EndOfLine] the root's
children are TextBold("a"), Text("b") with NO synthetic Space between them —
the adjacency hook is armed once per line, before the inline tokens are
consumed, so two text nodes produced on the same line are not separated. -/
theorem claim_C1_counterexample :
    parsedChildren [NewToken .star, NewTokenWithText .text "a", NewToken .star,
      NewTokenWithText .text "b", NewToken .eol] 0
      = [(.textBold, "a"), (.text, "b")]
    ∧ parsedChildren [NewToken .star, NewTokenWithText .text "a", NewToken .star,
      NewTokenWithText .text "b", NewToken .eol] 0
      ≠ [(.textBold, "a"), (.space, ""), (.text, "b")] :=
  ⟨by decide, by decide⟩

/-- Claim C1 (amended): the one-shot Space hook is armed at the start of a
line when the last node already in the tree is text-bearing, so the synthetic
Space appears between text-bearing nodes separated by a line boundary, not
within one line; the hook fires at most once no matter how many text nodes
follow. -/
theorem claim_C1_amended :
    parsedChildren [NewToken .star, NewTokenWithText .text "a", NewToken .star,
      NewTokenWithText .text "b", NewToken .eol] 0
      = [(.textBold, "a"), (.text, "b")]
    ∧ parsedChildren [NewToken .star, NewTokenWithText .text "a", NewToken .star,
      NewToken .eol, NewTokenWithText .text "b", NewTokenWithText .text "c",
      NewToken .eol] 0
      = [(.textBold, "a"), (.space, ""), (.text, "b"), (.text, "c")]
    ∧ parsedChildren [NewTokenWithText .text "a", NewToken .eol,
      NewTokenWithText .text "b", NewToken .eol] 0
      = [(.text, "a"), (.space, ""), (.text, "b")] :=
  ⟨by decide, by decide, by decide⟩

/-- Claim C2 (counterexample): on input [Text "a", EndOfLine] the claim's
formula (0 leading indents + 1 body token + 1 for the EndOfLine = 2) does not
match the consumed count returned by `NewTokenGroup`, which is 1: the
terminating EndOfLine is not included in the count. -/
theorem claim_C2_counterexample :
    (NewTokenGroup [NewTokenWithText .text "a", NewToken .eol]).2 ≠ 0 + 1 + 1 := by
  decide

/-- Claim C2 (witness). -/
theorem claim_C2_witness :
    (NewTokenGroup ([] ++ ([NewTokenWithText .text "a"] ++ NewToken .eol :: []))).2
      = List.length ([] : List Token) + List.length [NewTokenWithText .text "a"] :=
  claim_C2_amended [] [NewTokenWithText .text "a"] [] (NewToken .eol)
    (by intro t ht; simp at ht)
    (by intro t ht; rw [List.mem_singleton] at ht; subst ht; decide)
    (by intro b l2 hb; cases hb; decide)
    (by decide)

/-- A state for the witness of the wrapper-skipping round trip: a two-Group
chain under the root, with the current node a ListItem inside a List below
the deeper Group, so that the first closing step must skip both wrappers. -/
def wrapState : Parser :=
  ⟨[⟨.group, "", none, [1, 2]⟩, ⟨.text, "a", some 0, []⟩,
    ⟨.group, "", some 0, [3]⟩, ⟨.group, "", some 2, [4]⟩,
    ⟨.list, "", some 3, [5]⟩, ⟨.listItem, "item", some 4, []⟩], 0, 5, false⟩

/-- Claim C3: (1) from any state whose current node is a real arena node,
raising the indentation by `k` opens exactly `k` Group nodes — the arena
grows by exactly `k` nodes, every new node is a Group, the first a child of
the previous current node and each subsequent one a child of its
predecessor — and `k` closing steps immediately afterwards return the
current insertion point to the pre-increase node.  (2) The round trip also
holds after intermediate content has moved the insertion point: from any
state whose current node reaches the top of the `k`-long Group chain through
a run of non-Group wrappers (the List/ListItem/Block nodes the closing walk
skips), `k` closing steps return the insertion point to the node below the
chain.  (3) Connected to Parse on a line sequence: on the lines Text "a",
List-item at level `k`, Text "c" — the level increases by `k` and later
decreases by `k`, with the current node a ListItem two wrappers below the
deepest Group when the decrease is processed — Parse opens exactly `k`
Group nodes (the arena holds Groups exactly at the root and at the chain
indices 2..k+1, each chained under the previous current node), and the
closing line's Text lands again under the root, the very node that was
current before the increase. -/
theorem claim_C3_indent_round_trip :
    (∀ (p : Parser) (k : Nat), p.curr < p.arena.length →
      (openGroups k p).arena.length = p.arena.length + k
      ∧ (∀ i, p.arena.length ≤ i → i < p.arena.length + k →
          (getN (openGroups k p).arena i).kind = .group
          ∧ (getN (openGroups k p).arena i).parent
              = some (if i = p.arena.length then p.curr else i - 1)
          ∧ i ∈ (getN (openGroups k p).arena
              (if i = p.arena.length then p.curr else i - 1)).childs)
      ∧ (closeGroups k (openGroups k p)).curr = p.curr)
    ∧ (∀ (q : Parser) (len k base : Nat),
        (∀ i, i < len + k → len ≤ i →
          (getN q.arena i).kind = .group
          ∧ (getN q.arena i).parent = some (if i = len then base else i - 1)) →
        (k = 0 → q.curr = base) →
        (0 < k → wrapChain q.arena q.curr (len + k - 1) ∧ q.curr < q.arena.length) →
        (closeGroups k q).curr = base)
    ∧ (∀ k : Nat, 0 < k →
        (Parse (roundTripTokens k)).isSome = true
        ∧ (parseD (roundTripTokens k)).arena.length = k + 5
        ∧ childInfo (parseD (roundTripTokens k)) 0
            = [(.text, "a"), (.group, ""), (.text, "c")]
        ∧ (∀ i, i < k + 2 → 2 ≤ i →
            (getN (parseD (roundTripTokens k)).arena i).kind = .group
            ∧ (getN (parseD (roundTripTokens k)).arena i).parent
                = some (if i = 2 then 0 else i - 1))
        ∧ (∀ i, i < k + 5 →
            ((getN (parseD (roundTripTokens k)).arena i).kind = .group
              ↔ (i = 0 ∨ (2 ≤ i ∧ i < k + 2))))
        ∧ getN (parseD (roundTripTokens k)).arena (k + 4)
            = ⟨.text, "c", some 0, []⟩) := by
  refine ⟨?_, ?_, ?_⟩
  · intro p k h
    obtain ⟨h1, h2, h3, h4, h5, h6⟩ := openGroups_spec k p h
    refine ⟨h1, fun i hi1 hi2 => h6 i hi1 hi2, ?_⟩
    apply closeGroups_chain k (openGroups k p) p.arena.length p.curr
    · intro i hi1 hi2
      exact ⟨(h6 i hi1 hi2).1, (h6 i hi1 hi2).2.1⟩
    · intro hk0
      subst hk0
      rw [h3]
      rfl
    · intro hkpos
      rw [h3]
      have hne : ¬ (k = 0) := by omega
      simp [hne]
  · intro q len k base hnodes hcurr0 hcurrS
    exact closeGroups_chain_wrap k q len base hnodes hcurr0 hcurrS
  · intro k hk
    obtain ⟨q, hP, hlen, h0, h1, hg, hlist, hitem, hc⟩ := roundTrip_parse_facts k hk
    have hqD : parseD (roundTripTokens k) = q := by
      rw [parseD, hP]
      rfl
    refine ⟨?_, ?_, ?_, ?_, ?_, ?_⟩
    · rw [hP]
      rfl
    · rw [hqD]
      exact hlen
    · rw [hqD]
      have h2g := hg 2 (by omega) (by omega)
      simp only [childInfo, nodeInfo, h0, List.map_cons, List.map_nil, h1, hc,
        h2g.1, h2g.2.2]
    · intro i hi1 hi2
      obtain ⟨f1, f2, f3⟩ := hg i hi2 hi1
      rw [hqD]
      exact ⟨f1, f2⟩
    · intro i hi
      rw [hqD]
      have hcase : i = 0 ∨ i = 1 ∨ (2 ≤ i ∧ i < k + 2) ∨ i = k + 2 ∨ i = k + 3
          ∨ i = k + 4 := by omega
      rcases hcase with h | h | h | h | h | h
      · subst h
        have hki : (getN q.arena 0).kind = .group := by rw [h0]
        rw [hki]
        constructor
        · intro hx
          omega
        · intro hx
          rfl
      · subst h
        have hki : (getN q.arena 1).kind = .text := by rw [h1]
        rw [hki]
        constructor
        · intro hx
          exact absurd hx (by decide)
        · intro hx
          exact absurd hx (by omega)
      · have hki := (hg i h.1 h.2).1
        rw [hki]
        constructor
        · intro hx
          omega
        · intro hx
          rfl
      · subst h
        rw [hlist]
        constructor
        · intro hx
          exact absurd hx (by decide)
        · intro hx
          exact absurd hx (by omega)
      · subst h
        rw [hitem]
        constructor
        · intro hx
          exact absurd hx (by decide)
        · intro hx
          exact absurd hx (by omega)
      · subst h
        have hki : (getN q.arena (k + 4)).kind = .text := by rw [hc]
        rw [hki]
        constructor
        · intro hx
          exact absurd hx (by decide)
        · intro hx
          exact absurd hx (by omega)
    · rw [hqD]
      exact hc

/-- Claim C3 (witness): part (1) at the initial state with k = 2; part (2) at
a concrete six-node state whose current node is a ListItem inside a List
below the top of a two-Group chain, so the first closing step skips both
wrappers; part (3) at k = 2. -/
theorem claim_C3_witness :
    (parserInit.curr < parserInit.arena.length
      ∧ ((openGroups 2 parserInit).arena.length = parserInit.arena.length + 2
        ∧ (∀ i, parserInit.arena.length ≤ i → i < parserInit.arena.length + 2 →
            (getN (openGroups 2 parserInit).arena i).kind = .group
            ∧ (getN (openGroups 2 parserInit).arena i).parent
                = some (if i = parserInit.arena.length then parserInit.curr else i - 1)
            ∧ i ∈ (getN (openGroups 2 parserInit).arena
                (if i = parserInit.arena.length then parserInit.curr else i - 1)).childs)
        ∧ (closeGroups 2 (openGroups 2 parserInit)).curr = parserInit.curr))
    ∧ (closeGroups 2 wrapState).curr = 0
    ∧ (0 < 2
      ∧ ((Parse (roundTripTokens 2)).isSome = true
        ∧ (parseD (roundTripTokens 2)).arena.length = 2 + 5
        ∧ childInfo (parseD (roundTripTokens 2)) 0
            = [(.text, "a"), (.group, ""), (.text, "c")]
        ∧ (∀ i, i < 2 + 2 → 2 ≤ i →
            (getN (parseD (roundTripTokens 2)).arena i).kind = .group
            ∧ (getN (parseD (roundTripTokens 2)).arena i).parent
                = some (if i = 2 then 0 else i - 1))
        ∧ (∀ i, i < 2 + 5 →
            ((getN (parseD (roundTripTokens 2)).arena i).kind = .group
              ↔ (i = 0 ∨ (2 ≤ i ∧ i < 2 + 2))))
        ∧ getN (parseD (roundTripTokens 2)).arena (2 + 4)
            = ⟨.text, "c", some 0, []⟩)) :=
  ⟨⟨by decide, claim_C3_indent_round_trip.1 parserInit 2 (by decide)⟩,
   claim_C3_indent_round_trip.2.1 wrapState 2 2 0 (by decide) (by decide)
     (fun _ => ⟨wrapChain.step 5 4 3 (by decide) (by decide) (by decide)
        (wrapChain.step 4 3 3 (by decide) (by decide) (by decide) (wrapChain.refl 3)),
      by decide⟩),
   ⟨by decide, claim_C3_indent_round_trip.2.2 2 (by decide)⟩⟩

/-- Claim C4: two consecutive list-item lines at equal indentation — line
group [List-item-marker "first"] then line group [List-item-marker "second"]
— produce under the root exactly one List node holding exactly the two
ListItem children in order, and the whole tree contains exactly one List
node, not two. -/
theorem claim_C4_list_grouping :
    parsedChildren [NewTokenWithText .listItem "first", NewToken .eol,
      NewTokenWithText .listItem "second", NewToken .eol] 0 = [(.list, "")]
    ∧ parsedChildren [NewTokenWithText .listItem "first", NewToken .eol,
      NewTokenWithText .listItem "second", NewToken .eol] 1
      = [(.listItem, "first"), (.listItem, "second")]
    ∧ (Parse [NewTokenWithText .listItem "first", NewToken .eol,
      NewTokenWithText .listItem "second", NewToken .eol]).map listNodeCount
      = some 1 :=
  ⟨by decide, by decide, by decide⟩

/-- Claim C5: [Bold-delimiter, Text "word", Bold-delimiter] yields exactly
one TextBold("word") node with no delimiter-contributed siblings; the
unmatched [Bold-delimiter, Text "word"] yields only Text("word"), the stray
delimiter contributes nothing and no error is raised; the Underline rule is
symmetric and produces TextUnderline. -/
theorem claim_C5_delimiter_pairing :
    parsedChildren [NewToken .star, NewTokenWithText .text "word", NewToken .star,
      NewToken .eol] 0 = [(.textBold, "word")]
    ∧ parsedChildren [NewToken .star, NewTokenWithText .text "word",
      NewToken .eol] 0 = [(.text, "word")]
    ∧ (Parse [NewToken .star, NewTokenWithText .text "word",
      NewToken .eol]).isSome = true
    ∧ parsedChildren [NewToken .underline, NewTokenWithText .text "word",
      NewToken .underline, NewToken .eol] 0 = [(.textUnderline, "word")]
    ∧ parsedChildren [NewToken .underline, NewTokenWithText .text "word",
      NewToken .eol] 0 = [(.text, "word")] :=
  ⟨by decide, by decide, by decide, by decide, by decide⟩

/-- Claim C6: a line group with zero tokens that is not the first group
resets the current insertion point to the root, appends exactly one Break
node directly under the root (even from a nested state) and skips the rest
of the line's processing; two non-empty lines separated by one empty line
yield, under root, the content of line 1, a Break, then the content of
line 2 — also when line 1 was nested. -/
theorem claim_C6_break_on_empty_line :
    (∀ (p : Parser) (ll lvl pos : Nat), p.root < p.arena.length →
      (processGroup p ll false ⟨[], lvl, pos⟩).2 = ll
      ∧ (processGroup p ll false ⟨[], lvl, pos⟩).1.curr = p.root
      ∧ (processGroup p ll false ⟨[], lvl, pos⟩).1.arena.length = p.arena.length + 1
      ∧ getN (processGroup p ll false ⟨[], lvl, pos⟩).1.arena p.arena.length
          = ⟨.brk, "", some p.root, []⟩
      ∧ (getN (processGroup p ll false ⟨[], lvl, pos⟩).1.arena p.root).childs
          = (getN p.arena p.root).childs ++ [p.arena.length])
    ∧ parsedChildren [NewTokenWithText .text "a", NewToken .eol, NewToken .eol,
      NewTokenWithText .text "b", NewToken .eol] 0
      = [(.text, "a"), (.brk, ""), (.text, "b")]
    ∧ parsedChildren [NewToken .indent, NewTokenWithText .text "a", NewToken .eol,
      NewToken .eol, NewTokenWithText .text "b", NewToken .eol] 0
      = [(.group, ""), (.brk, ""), (.text, "b")] :=
  ⟨fun p ll lvl pos h => processGroup_empty_spec p ll lvl pos h, by decide, by decide⟩

/-- Claim C6 (witness). -/
theorem claim_C6_witness :
    (processGroup parserInit 0 false ⟨[], 0, 0⟩).2 = 0
    ∧ (processGroup parserInit 0 false ⟨[], 0, 0⟩).1.curr = parserInit.root
    ∧ (processGroup parserInit 0 false ⟨[], 0, 0⟩).1.arena.length
        = parserInit.arena.length + 1
    ∧ getN (processGroup parserInit 0 false ⟨[], 0, 0⟩).1.arena
        parserInit.arena.length = ⟨.brk, "", some parserInit.root, []⟩
    ∧ (getN (processGroup parserInit 0 false ⟨[], 0, 0⟩).1.arena
        parserInit.root).childs
        = (getN parserInit.arena parserInit.root).childs
          ++ [parserInit.arena.length] :=
  claim_C6_break_on_empty_line.1 parserInit 0 0 0 (by decide)

/-- Claim C7: consuming a Section token, from any state and at any nesting
depth, resets the current insertion point to the root and appends a Section
node carrying the token's text as a direct child of the root; every node
produced by the rest of the line's inline consumption is likewise appended
directly under the root.  Concretely, a Section token met three Group levels
deep lands directly under the root, as does the text following it. -/
theorem claim_C7_section_reset :
    (∀ (p : Parser) (s : String) (rest : List Token), p.root < p.arena.length →
      (drainTokens p (⟨.sect, s⟩ :: rest)).curr = p.root
      ∧ (getN (drainTokens p (⟨.sect, s⟩ :: rest)).arena p.arena.length).kind = .sect
      ∧ (getN (drainTokens p (⟨.sect, s⟩ :: rest)).arena p.arena.length).text = s
      ∧ (getN (drainTokens p (⟨.sect, s⟩ :: rest)).arena p.arena.length).parent
          = some p.root
      ∧ p.arena.length ∈ (getN (drainTokens p (⟨.sect, s⟩ :: rest)).arena p.root).childs
      ∧ (∀ j, p.arena.length ≤ j →
          j < (drainTokens p (⟨.sect, s⟩ :: rest)).arena.length →
          (getN (drainTokens p (⟨.sect, s⟩ :: rest)).arena j).parent = some p.root))
    ∧ parsedChildren [NewToken .indent, NewToken .indent, NewToken .indent,
      NewTokenWithText .text "a", NewToken .eol, NewToken .indent, NewToken .indent,
      NewToken .indent, NewTokenWithText .sect "S", NewTokenWithText .text "b",
      NewToken .eol] 0 = [(.group, ""), (.sect, "S"), (.text, "b")] := by
  constructor
  · intro p s rest hroot
    have hunf : drainTokens p (⟨.sect, s⟩ :: rest)
        = drainTokens (addNode (closeAllGroups p) .sect s).1 rest := by
      rw [drainTokens]
    have hidx : (addNode (closeAllGroups p) .sect s).2 = p.arena.length :=
      addNode_idx_of_not_text (closeAllGroups p) .sect s rfl
    have hmain := addNode_getN_main (closeAllGroups p) .sect s
    rw [hidx] at hmain
    have hlen : p.arena.length < (addNode (closeAllGroups p) .sect s).1.arena.length := by
      rw [addNode_length_of_not_text (closeAllGroups p) .sect s rfl]
      exact Nat.lt_succ_self _
    obtain ⟨hp1, hp2, hp3⟩ :=
      drainTokens_getN_preserved (addNode (closeAllGroups p) .sect s).1 rest
        p.arena.length hlen
    have hccrr : (addNode (closeAllGroups p) .sect s).1.curr
        = (addNode (closeAllGroups p) .sect s).1.root := by
      rw [addNode_curr, addNode_root]
      rfl
    refine ⟨?_, ?_, ?_, ?_, ?_, ?_⟩
    · rw [hunf]
      rcases drainTokens_curr (addNode (closeAllGroups p) .sect s).1 rest with hc | hc
      · rw [hc, addNode_curr]
        rfl
      · rw [hc, addNode_root]
        rfl
    · rw [hunf, hp2, hmain]
    · rw [hunf, hp3, hmain]
    · rw [hunf, hp1, hmain]
      rfl
    · rw [hunf]
      apply drainTokens_childs_mono
      rw [show (p.root : Nat) = (closeAllGroups p).curr from rfl,
        addNode_childs_curr_of_not_text (closeAllGroups p) .sect s rfl hroot]
      exact List.mem_append_right _ (List.mem_singleton.mpr rfl)
    · intro j hj1 hj2
      rw [hunf] at hj2 ⊢
      rcases Nat.lt_or_ge j (addNode (closeAllGroups p) .sect s).1.arena.length
        with hj | hj
      · obtain ⟨hq1, _, _⟩ :=
          drainTokens_getN_preserved (addNode (closeAllGroups p) .sect s).1 rest j hj
        rw [hq1]
        rw [addNode_length_of_not_text (closeAllGroups p) .sect s rfl] at hj
        have hcg : (closeAllGroups p).arena.length = p.arena.length := rfl
        have hj' : j = p.arena.length := by omega
        subst hj'
        rw [hmain]
        rfl
      · have := drainTokens_parents_at_root (addNode (closeAllGroups p) .sect s).1
          rest hccrr j hj hj2
        rw [this, addNode_root]
        rfl
  · decide

/-- Claim C7 (witness). -/
theorem claim_C7_witness :
    (drainTokens parserInit (⟨.sect, "S"⟩ :: [])).curr = parserInit.root
    ∧ (getN (drainTokens parserInit (⟨.sect, "S"⟩ :: [])).arena
        parserInit.arena.length).kind = .sect
    ∧ (getN (drainTokens parserInit (⟨.sect, "S"⟩ :: [])).arena
        parserInit.arena.length).text = "S"
    ∧ (getN (drainTokens parserInit (⟨.sect, "S"⟩ :: [])).arena
        parserInit.arena.length).parent = some parserInit.root
    ∧ parserInit.arena.length
        ∈ (getN (drainTokens parserInit (⟨.sect, "S"⟩ :: [])).arena
            parserInit.root).childs
    ∧ (∀ j, parserInit.arena.length ≤ j →
        j < (drainTokens parserInit (⟨.sect, "S"⟩ :: [])).arena.length →
        (getN (drainTokens parserInit (⟨.sect, "S"⟩ :: [])).arena j).parent
          = some parserInit.root) :=
  claim_C7_section_reset.1 parserInit "S" [] (by decide)

/-- Claim C8: closing a level when the current node has no parent (the root)
is a no-op, and in every tree returned by Parse the root node (index 0) has
no parent and is an ancestor of every node in the arena. -/
theorem claim_C8_root_invariants :
    (∀ p : Parser, (getN p.arena p.curr).parent = none → closeGroup p = p)
    ∧ (∀ (tokens : List Token) (q : Parser), Parse tokens = some q →
        (getN q.arena 0).parent = none
        ∧ (∀ i, i < q.arena.length → reachesRoot q.arena i)) := by
  constructor
  · intro p h
    exact closeGroup_of_parent_none p h
  · intro tokens q h
    have hI := Parse_Inv tokens q h
    exact ⟨hI.rootParent, reaches_of_InvA q hI.toInvA⟩

/-- Claim C8 (witness). -/
theorem claim_C8_witness :
    closeGroup parserInit = parserInit
    ∧ ((getN parserInit.arena 0).parent = none
      ∧ (∀ i, i < parserInit.arena.length → reachesRoot parserInit.arena i)) :=
  ⟨claim_C8_root_invariants.1 parserInit (by decide),
    claim_C8_root_invariants.2 [] parserInit rfl⟩

/-- Claim C9: in every tree returned by Parse, every child of every List node
is a ListItem node. -/
theorem claim_C9_list_children (tokens : List Token) (q : Parser)
    (h : Parse tokens = some q) :
    ∀ i, i < q.arena.length → (getN q.arena i).kind = .list →
      ∀ c ∈ (getN q.arena i).childs, (getN q.arena c).kind = .listItem := by
  intro i hi hk c hc
  exact (Parse_Inv tokens q h).listChilds i c hk hc

/-- Claim C9 (witness). -/
theorem claim_C9_witness :
    (getN (parseD [NewTokenWithText .listItem "first", NewToken .eol,
      NewTokenWithText .listItem "second", NewToken .eol]).arena 2).kind
      = .listItem :=
  claim_C9_list_children
    [NewTokenWithText .listItem "first", NewToken .eol,
      NewTokenWithText .listItem "second", NewToken .eol]
    (parseD [NewTokenWithText .listItem "first", NewToken .eol,
      NewTokenWithText .listItem "second", NewToken .eol])
    (by decide) 1 (by decide) (by decide) 2 (by decide)

/-- Claim C10: Parse's slice step `tokens[consumed+1:]` stays in bounds and
Parse runs to completion exactly when every line group is terminated by an
EndOfLine token (equivalently, the nonempty input ends with one); an input
whose final line lacks the terminating EndOfLine makes `consumed+1` exceed
the remaining length — the out-of-range slice, modelled as `none`. -/
theorem claim_C10_eol_termination :
    (∀ (init : List Token) (t : Token), t.Is .eol = true →
      (splitGroups (init ++ [t])).isSome = true
      ∧ (Parse (init ++ [t])).isSome = true)
    ∧ (∀ (init : List Token) (t : Token), t.Is .eol = false →
      splitGroups (init ++ [t]) = none ∧ Parse (init ++ [t]) = none) :=
  ⟨fun init t h => ⟨splitGroups_isSome_of_eol init t h,
      Parse_append_single_isSome init t h⟩,
    fun init t h => ⟨splitGroups_none_of_not_eol init t h,
      Parse_append_single_none init t h⟩⟩

/-- Claim C10 (witness). -/
theorem claim_C10_witness :
    ((splitGroups ([NewTokenWithText .text "a"] ++ [NewToken .eol])).isSome = true
      ∧ (Parse ([NewTokenWithText .text "a"] ++ [NewToken .eol])).isSome = true)
    ∧ (splitGroups ([] ++ [NewTokenWithText .text "a"]) = none
      ∧ Parse ([] ++ [NewTokenWithText .text "a"]) = none) :=
  ⟨claim_C10_eol_termination.1 [NewTokenWithText .text "a"] (NewToken .eol) (by decide),
    claim_C10_eol_termination.2 [] (NewTokenWithText .text "a") (by decide)⟩

end Mango
